import Mathlib

/-!
Verification of the JSON-directory-to-CSV conversion core of the
google-multispecies-whale-detection repository
(`json_to_csv_expanded_natsort.py`), as a shallow embedding in Lean.

The embedding models:
* `natural_sort_key` (line 10 of the source): splitting a string into
  alternating digit / non-digit runs, digit runs as integers, other runs
  lower-cased;
* `flatten_json` (line 16): recursive flattening of a JSON value into a
  Python-dict of scalar values, with the value-dependent natural-sort
  reordering of array elements;
* `extract_chunk_number` (line 53), `calculate_time_offset` (line 68);
* `json_directory_to_csv` (line 74): the two-pass pipeline (sort files by
  chunk number, flatten each parsed document, build the schema from the
  union of keys, emit one row per document).

Machine-level / library behaviour of Python that the model fixes:
* strings are lists of unicode code points, compared lexicographically by
  code point (`<` on `str`), as plain Boolean functions so that the kernel
  can evaluate them;
* Python `dict` is an insertion-ordered association list with
  overwrite-in-place update;
* JSON numbers are modelled as integers (floating point is out of scope);
* `str.lower` is modelled on the ASCII range;
* the `natsort` library's default `natsorted` key is modelled as the same
  digit-run decomposition, case-sensitive;
* Python's `sorted`/`list.sort` is a stable sort, modelled by
  `List.insertionSort` (also stable) with the `≤` induced by the key.
-/

/-- ASCII decimal digit test: models Python's `str.isdigit` / `\d` on the
ASCII range (the source only ever meets ASCII digits in filenames and keys). -/
def isDig (c : Char) : Bool := decide ('0' ≤ c) && decide (c ≤ '9')

/-- Strict lexicographic order on lists, parameterised by a strict order on
elements; models Python's `<` on lists (and on strings, at the level of
their character lists): element-wise comparison, a strict prefix is smaller. -/
def lexLt {α : Type} [DecidableEq α] (lt : α → α → Bool) : List α → List α → Bool
  | _, [] => false
  | [], _ :: _ => true
  | a :: as, b :: bs => if lt a b then true else if a = b then lexLt lt as bs else false

theorem lexLt_irrefl {α : Type} [DecidableEq α] (lt : α → α → Bool)
    (hirr : ∀ a, lt a a = false) : ∀ l, lexLt lt l l = false
  | [] => rfl
  | a :: as => by simp [lexLt, hirr a, lexLt_irrefl lt hirr as]

theorem lexLt_nil_right {α : Type} [DecidableEq α] (lt : α → α → Bool) (l : List α) :
    lexLt lt l [] = false := by
  cases l <;> rfl

theorem lexLt_asymm {α : Type} [DecidableEq α] (lt : α → α → Bool)
    (hirr : ∀ a, lt a a = false)
    (hasym : ∀ a b, lt a b = true → lt b a = false) :
    ∀ l₁ l₂, lexLt lt l₁ l₂ = true → lexLt lt l₂ l₁ = false := by
  intro l₁
  induction l₁ with
  | nil =>
    intro l₂ _
    cases l₂ with
    | nil => rfl
    | cons b bs => exact lexLt_nil_right lt (b :: bs)
  | cons a as ih =>
    intro l₂ h
    cases l₂ with
    | nil => rw [lexLt_nil_right] at h; cases h
    | cons b bs =>
      by_cases hab : lt a b = true
      · have hba := hasym a b hab
        have hne : b ≠ a := by
          intro he; rw [he, hirr a] at hab; cases hab
        simp [lexLt, hba, hne]
      · simp only [lexLt, hab, if_false] at h
        by_cases he : a = b
        · subst he
          simp only [if_pos rfl] at h
          simp [lexLt, hirr a, ih bs h]
        · simp [he] at h

theorem lexLt_trans {α : Type} [DecidableEq α] (lt : α → α → Bool)
    (htr : ∀ a b c, lt a b = true → lt b c = true → lt a c = true) :
    ∀ l₁ l₂ l₃, lexLt lt l₁ l₂ = true → lexLt lt l₂ l₃ = true → lexLt lt l₁ l₃ = true := by
  intro l₁
  induction l₁ with
  | nil =>
    intro l₂ l₃ h₁ h₂
    cases l₂ with
    | nil => rw [lexLt_nil_right] at h₁; cases h₁
    | cons b bs =>
      cases l₃ with
      | nil => rw [lexLt_nil_right] at h₂; cases h₂
      | cons c cs => rfl
  | cons a as ih =>
    intro l₂ l₃ h₁ h₂
    cases l₂ with
    | nil => rw [lexLt_nil_right] at h₁; cases h₁
    | cons b bs =>
      cases l₃ with
      | nil => rw [lexLt_nil_right] at h₂; cases h₂
      | cons c cs =>
        by_cases hab : lt a b = true
        · by_cases hbc : lt b c = true
          · simp [lexLt, htr a b c hab hbc]
          · simp only [lexLt, hbc, if_false] at h₂
            by_cases he : b = c
            · subst he; simp [lexLt, hab]
            · simp [he] at h₂
        · simp only [lexLt, hab, if_false] at h₁
          by_cases he : a = b
          · subst he
            simp only [if_pos rfl] at h₁
            by_cases hbc : lt a c = true
            · simp [lexLt, hbc]
            · simp only [lexLt, hbc, if_false] at h₂ ⊢
              by_cases he' : a = c
              · subst he'
                simp only [if_pos rfl] at h₂ ⊢
                exact ih bs cs h₁ h₂
              · simp [he'] at h₂
          · simp [he] at h₁

theorem lexLt_trichotomy {α : Type} [DecidableEq α] (lt : α → α → Bool)
    (htri : ∀ a b, lt a b = true ∨ a = b ∨ lt b a = true) :
    ∀ l₁ l₂, lexLt lt l₁ l₂ = true ∨ l₁ = l₂ ∨ lexLt lt l₂ l₁ = true
  | [], [] => Or.inr (Or.inl rfl)
  | [], _ :: _ => Or.inl rfl
  | _ :: _, [] => Or.inr (Or.inr rfl)
  | a :: as, b :: bs => by
    rcases htri a b with hab | he | hba
    · exact Or.inl (by simp [lexLt, hab])
    · subst he
      rcases lexLt_trichotomy lt htri as bs with h | h | h
      · exact Or.inl (by simp [lexLt, h])
      · exact Or.inr (Or.inl (by rw [h]))
      · exact Or.inr (Or.inr (by simp [lexLt, h]))
    · exact Or.inr (Or.inr (by simp [lexLt, hba]))

/-- Strict order on characters by code point, as Python compares them. -/
def charLt (a b : Char) : Bool := decide (a.toNat < b.toNat)

theorem charLt_irrefl (a : Char) : charLt a a = false := by simp [charLt]

theorem charLt_asymm (a b : Char) (h : charLt a b = true) : charLt b a = false := by
  simp only [charLt, decide_eq_true_eq] at h ⊢
  simp [Nat.le_of_lt h]

theorem charLt_trans (a b c : Char) (h₁ : charLt a b = true) (h₂ : charLt b c = true) :
    charLt a c = true := by
  simp only [charLt, decide_eq_true_eq] at h₁ h₂ ⊢
  exact Nat.lt_trans h₁ h₂

theorem char_toNat_inj {a b : Char} (h : a.toNat = b.toNat) : a = b := by
  have : Char.ofNat a.toNat = Char.ofNat b.toNat := by rw [h]
  rwa [Char.ofNat_toNat, Char.ofNat_toNat] at this

theorem charLt_trichotomy (a b : Char) :
    charLt a b = true ∨ a = b ∨ charLt b a = true := by
  rcases Nat.lt_trichotomy a.toNat b.toNat with h | h | h
  · exact Or.inl (by simp [charLt, h])
  · exact Or.inr (Or.inl (char_toNat_inj h))
  · exact Or.inr (Or.inr (by simp [charLt, h]))

/-- One element of a Python natural-sort key: either a (non-digit) text run
or the integer value of a digit run. Models the mixed `str`/`int` entries of
the list built by `natural_sort_key`. -/
inductive NatElem where
  | str : List Char → NatElem
  | int : Nat → NatElem
deriving DecidableEq, Repr

/-- Strict order on key elements. On two text runs or two integer runs it is
exactly Python's comparison; a mixed comparison raises `TypeError` in Python
and never occurs between keys produced by `natural_sort_key` (they alternate
in lock-step), so the model may fix an arbitrary value (`str < int`) there. -/
def elemLt : NatElem → NatElem → Bool
  | .str a, .str b => lexLt charLt a b
  | .str _, .int _ => true
  | .int _, .str _ => false
  | .int a, .int b => decide (a < b)

theorem elemLt_irrefl (a : NatElem) : elemLt a a = false := by
  cases a with
  | str s => simp [elemLt, lexLt_irrefl charLt charLt_irrefl]
  | int n => simp [elemLt]

theorem elemLt_asymm (a b : NatElem) (h : elemLt a b = true) : elemLt b a = false := by
  cases a <;> cases b <;> simp_all [elemLt]
  case str.str s t => exact lexLt_asymm charLt charLt_irrefl charLt_asymm s t h
  case int.int m n => omega

theorem elemLt_trans (a b c : NatElem) (h₁ : elemLt a b = true) (h₂ : elemLt b c = true) :
    elemLt a c = true := by
  cases a <;> cases b <;> cases c <;> simp_all [elemLt]
  case str.str.str s t u => exact lexLt_trans charLt charLt_trans s t u h₁ h₂
  case int.int.int m n k => omega

theorem elemLt_trichotomy (a b : NatElem) :
    elemLt a b = true ∨ a = b ∨ elemLt b a = true := by
  cases a with
  | str s =>
    cases b with
    | str t =>
      rcases lexLt_trichotomy charLt charLt_trichotomy s t with h | h | h
      · exact Or.inl (by simp [elemLt, h])
      · exact Or.inr (Or.inl (by rw [h]))
      · exact Or.inr (Or.inr (by simp [elemLt, h]))
    | int n => exact Or.inl (by simp [elemLt])
  | int m =>
    cases b with
    | str t => exact Or.inr (Or.inr (by simp [elemLt]))
    | int n =>
      rcases Nat.lt_trichotomy m n with h | h | h
      · exact Or.inl (by simp [elemLt, h])
      · exact Or.inr (Or.inl (by rw [h]))
      · exact Or.inr (Or.inr (by simp [elemLt, h]))

/-- Strict lexicographic order on whole natural-sort keys: Python's `<` on
the key lists. -/
def keyLt : List NatElem → List NatElem → Bool := lexLt elemLt

theorem keyLt_irrefl (l : List NatElem) : keyLt l l = false :=
  lexLt_irrefl elemLt elemLt_irrefl l

theorem keyLt_asymm (l₁ l₂ : List NatElem) (h : keyLt l₁ l₂ = true) : keyLt l₂ l₁ = false :=
  lexLt_asymm elemLt elemLt_irrefl elemLt_asymm l₁ l₂ h

theorem keyLt_trans (l₁ l₂ l₃ : List NatElem) (h₁ : keyLt l₁ l₂ = true)
    (h₂ : keyLt l₂ l₃ = true) : keyLt l₁ l₃ = true :=
  lexLt_trans elemLt elemLt_trans l₁ l₂ l₃ h₁ h₂

theorem keyLt_trichotomy (l₁ l₂ : List NatElem) :
    keyLt l₁ l₂ = true ∨ l₁ = l₂ ∨ keyLt l₂ l₁ = true :=
  lexLt_trichotomy elemLt elemLt_trichotomy l₁ l₂

/-- Split a character list into maximal alternating runs of non-digits and
digits, keeping the (captured) digit runs: models Python's
`re.split(r'(\d+)', s)` from `natural_sort_key` (source line 14). The result
always starts and ends with a possibly-empty non-digit run; digit runs sit at
the odd positions. -/
def natSplit : List Char → List (List Char)
  | [] => [[]]
  | c :: cs =>
    if isDig c then
      match natSplit cs with
      | s :: d :: rest => if s = [] then [] :: (c :: d) :: rest else [] :: [c] :: s :: d :: rest
      | r => [] :: [c] :: r
    else
      match natSplit cs with
      | s :: rest => (c :: s) :: rest
      | [] => [[c]]

theorem natSplit_ne_nil : ∀ cs, natSplit cs ≠ [] := by
  intro cs
  cases cs with
  | nil => simp [natSplit]
  | cons c cs =>
    unfold natSplit
    by_cases h : isDig c = true <;> simp only [h, if_true, if_false, Bool.false_eq_true] <;>
      split <;> (try split) <;> simp_all

/-- The alternating-run invariant of `natSplit`: runs at even positions are
digit-free, runs at odd positions are non-empty and all digits, and the run
list starts and ends with a digit-free run. -/
inductive AltRuns : List (List Char) → Prop
  | single (s : List Char) : (∀ c ∈ s, isDig c = false) → AltRuns [s]
  | step (s d : List Char) (rest : List (List Char)) :
      (∀ c ∈ s, isDig c = false) → d ≠ [] → (∀ c ∈ d, isDig c = true) →
      AltRuns rest → AltRuns (s :: d :: rest)

theorem altRuns_natSplit : ∀ cs, AltRuns (natSplit cs) := by
  intro cs
  induction cs with
  | nil => exact AltRuns.single [] (by simp)
  | cons c cs ih =>
    rcases hr : natSplit cs with - | ⟨s, rest⟩
    · exact absurd hr (natSplit_ne_nil cs)
    rw [hr] at ih
    by_cases hc : isDig c = true
    · cases rest with
      | nil =>
        have hres : natSplit (c :: cs) = [] :: [c] :: [s] := by
          unfold natSplit; rw [hr, if_pos hc]
        rw [hres]
        cases ih with
        | single s hs =>
          refine AltRuns.step [] [c] [s] (by simp) (by simp) ?_ (AltRuns.single s hs)
          intro x hx
          rw [List.mem_singleton] at hx
          subst hx
          exact hc
      | cons d rest' =>
        cases ih with
        | step s d rest' hs hd hdall hrest =>
          by_cases hse : s = []
          · have hres : natSplit (c :: cs) = [] :: (c :: d) :: rest' := by
              unfold natSplit; rw [hr, if_pos hc]; dsimp only; rw [if_pos hse]
            rw [hres]
            refine AltRuns.step [] (c :: d) rest' (by simp) (by simp) ?_ hrest
            intro x hx
            rcases List.mem_cons.mp hx with h | h
            · subst h; exact hc
            · exact hdall x h
          · have hres : natSplit (c :: cs) = [] :: [c] :: s :: d :: rest' := by
              unfold natSplit; rw [hr, if_pos hc]; dsimp only; rw [if_neg hse]
            rw [hres]
            refine AltRuns.step [] [c] (s :: d :: rest') (by simp) (by simp) ?_
              (AltRuns.step s d rest' hs hd hdall hrest)
            intro x hx
            rw [List.mem_singleton] at hx
            subst hx
            exact hc
    · have hres : natSplit (c :: cs) = (c :: s) :: rest := by
        unfold natSplit; rw [hr, if_neg hc]
      rw [hres]
      have hcd : isDig c = false := by
        cases hv : isDig c
        · rfl
        · exact absurd hv hc
      cases ih with
      | single s hs =>
        refine AltRuns.single (c :: s) ?_
        intro x hx
        rcases List.mem_cons.mp hx with h | h
        · subst h; exact hcd
        · exact hs x h
      | step s d rest' hs hd hdall hrest =>
        refine AltRuns.step (c :: s) d rest' ?_ hd hdall hrest
        intro x hx
        rcases List.mem_cons.mp hx with h | h
        · subst h; exact hcd
        · exact hs x h

/-- ASCII lower-casing of one character, modelling Python's `str.lower` on
the ASCII range (`natural_sort_key` applies `text.lower()` to non-digit runs). -/
def pyLowerChar (c : Char) : Char :=
  match c with
  | 'A' => 'a' | 'B' => 'b' | 'C' => 'c' | 'D' => 'd' | 'E' => 'e' | 'F' => 'f' | 'G' => 'g'
  | 'H' => 'h' | 'I' => 'i' | 'J' => 'j' | 'K' => 'k' | 'L' => 'l' | 'M' => 'm' | 'N' => 'n'
  | 'O' => 'o' | 'P' => 'p' | 'Q' => 'q' | 'R' => 'r' | 'S' => 's' | 'T' => 't' | 'U' => 'u'
  | 'V' => 'v' | 'W' => 'w' | 'X' => 'x' | 'Y' => 'y' | 'Z' => 'z'
  | c => c

/-- Numeric value of a digit run, modelling Python's `int(text)`. -/
def digitsToNat (cs : List Char) : Nat :=
  cs.foldl (fun a c => 10 * a + (c.toNat - 48)) 0

/-- One element of the key built by `natural_sort_key` (source line 14):
`int(text) if text.isdigit() else text.lower()`. Note `''.isdigit()` is
`False` in Python, so the empty run becomes the empty string. -/
def tokToElem (t : List Char) : NatElem :=
  if t ≠ [] ∧ t.all isDig then NatElem.int (digitsToNat t) else NatElem.str (t.map pyLowerChar)

/-- The key function for natural sorting of strings containing numbers:
models `natural_sort_key` (source lines 10-14). -/
def natural_sort_key (s : String) : List NatElem :=
  (natSplit s.data).map tokToElem

/-- One element of the default key of the `natsort` library (used via
`natsorted` for array elements, source lines 30 and 41): same digit-run
decomposition, but case-sensitive (no lower-casing). -/
def nsTokToElem (t : List Char) : NatElem :=
  if t ≠ [] ∧ t.all isDig then NatElem.int (digitsToNat t) else NatElem.str t

/-- The default string key of the `natsort` library's `natsorted`. -/
def nsKey (s : String) : List NatElem :=
  (natSplit s.data).map nsTokToElem

/-- The total preorder "does not come strictly after" on strings under the
natural-sort key; `fieldnames_list.sort(key=natural_sort_key)` (source line
130) sorts into exactly this order. -/
def natLe (a b : String) : Prop := keyLt (natural_sort_key b) (natural_sort_key a) = false

instance : DecidableRel natLe := fun a b =>
  inferInstanceAs (Decidable (_ = false))

instance : IsTotal String natLe := by
  constructor
  intro a b
  by_cases h : keyLt (natural_sort_key b) (natural_sort_key a) = true
  · exact Or.inr (keyLt_asymm _ _ h)
  · exact Or.inl (Bool.eq_false_iff.mpr h)

instance : IsTrans String natLe := by
  constructor
  intro a b c hab hbc
  unfold natLe at *
  by_cases h : keyLt (natural_sort_key c) (natural_sort_key a) = true
  · rcases keyLt_trichotomy (natural_sort_key a) (natural_sort_key b) with h' | h' | h'
    · have := keyLt_trans _ _ _ h h'
      rw [this] at hbc; cases hbc
    · rw [← h'] at hbc; rw [hbc] at h; cases h
    · rw [h'] at hab; cases hab
  · exact Bool.eq_false_iff.mpr h

theorem natLe_antisymm_key {a b : String} (h₁ : natLe a b) (h₂ : natLe b a) :
    natural_sort_key a = natural_sort_key b := by
  unfold natLe at h₁ h₂
  rcases keyLt_trichotomy (natural_sort_key a) (natural_sort_key b) with h | h | h
  · rw [h] at h₂; cases h₂
  · exact h
  · rw [h] at h₁; cases h₁

/-- Decimal digit character of a value below ten. -/
def digitChar (n : Nat) : Char :=
  match n with
  | 0 => '0' | 1 => '1' | 2 => '2' | 3 => '3' | 4 => '4'
  | 5 => '5' | 6 => '6' | 7 => '7' | 8 => '8' | _ => '9'

/-- Fuelled worker for `natDigits`; the fuel only bounds the recursion depth
so that the definition is structural and kernel-computable. -/
def natDigitsF : Nat → Nat → List Char
  | 0, _ => []
  | fuel + 1, n => if n < 10 then [digitChar n] else natDigitsF fuel (n / 10) ++ [digitChar (n % 10)]

theorem natDigitsF_congr : ∀ f g n, n < f → n < g → natDigitsF f n = natDigitsF g n := by
  intro f
  induction f with
  | zero => intro g n h; omega
  | succ f ih =>
    intro g n hf hg
    cases g with
    | zero => omega
    | succ g =>
      show (if n < 10 then [digitChar n] else natDigitsF f (n / 10) ++ [digitChar (n % 10)])
        = (if n < 10 then [digitChar n] else natDigitsF g (n / 10) ++ [digitChar (n % 10)])
      by_cases h10 : n < 10
      · rw [if_pos h10, if_pos h10]
      · have hd : n / 10 < n := Nat.div_lt_self (by omega) (by omega)
        rw [if_neg h10, if_neg h10, ih g (n / 10) (by omega) (by omega)]

/-- Decimal digit characters of a natural number, most significant first:
models the text produced for an integer by a Python f-string or `str`. -/
def natDigits (n : Nat) : List Char := natDigitsF (n + 1) n

/-- The defining equation of `natDigits`, free of fuel. -/
theorem natDigits_eq (n : Nat) :
    natDigits n = if n < 10 then [digitChar n] else natDigits (n / 10) ++ [digitChar (n % 10)] := by
  show (if n < 10 then [digitChar n] else natDigitsF n (n / 10) ++ [digitChar (n % 10)]) = _
  by_cases h10 : n < 10
  · rw [if_pos h10, if_pos h10]
  · have hd : n / 10 < n := Nat.div_lt_self (by omega) (by omega)
    rw [if_neg h10, if_neg h10,
      natDigitsF_congr n (n / 10 + 1) (n / 10) (by omega) (by omega)]
    rfl

/-- Decimal rendering of a natural number. -/
def natRepr (n : Nat) : String := String.mk (natDigits n)

/-- Decimal rendering of an integer, modelling Python's `str` on `int`. -/
def intRepr (n : Int) : String :=
  if n < 0 then String.mk ('-' :: natDigits n.natAbs) else natRepr n.toNat

theorem digitChar_val {n : Nat} (h : n < 10) : (digitChar n).toNat - 48 = n := by
  interval_cases n <;> rfl

theorem digitsToNat_append_singleton (l : List Char) (c : Char) :
    digitsToNat (l ++ [c]) = 10 * digitsToNat l + (c.toNat - 48) := by
  unfold digitsToNat
  rw [List.foldl_append]
  rfl

theorem digitsToNat_natDigits (n : Nat) : digitsToNat (natDigits n) = n := by
  induction n using Nat.strong_induction_on with
  | _ n ih =>
    by_cases h : n < 10
    · rw [natDigits_eq, if_pos h]
      show digitsToNat [digitChar n] = n
      unfold digitsToNat
      simp [digitChar_val h]
    · rw [natDigits_eq, if_neg h]
      rw [digitsToNat_append_singleton]
      rw [ih (n / 10) (Nat.div_lt_self (by omega) (by omega))]
      rw [digitChar_val (Nat.mod_lt n (by omega))]
      omega

theorem natDigits_inj {m n : Nat} (h : natDigits m = natDigits n) : m = n := by
  have hm := (digitsToNat_natDigits m).symm
  rw [h, digitsToNat_natDigits] at hm
  exact hm

theorem natRepr_inj {m n : Nat} (h : natRepr m = natRepr n) : m = n := by
  unfold natRepr at h
  exact natDigits_inj (congrArg String.data h)

/-!
Parsed JSON values, as produced by Python's `json.load`: dicts keep
insertion order and have unique keys in real documents (the model does not
assume uniqueness). Numbers are modelled as integers. The children of
objects and arrays are given by the companion types `JObj` and `JArr`
(plain cons-lists, convertible to `List` via `toList`) so that the whole
family is a mutual — rather than nested — inductive, keeping every
function on it structurally recursive and kernel-computable.
-/
mutual

/-- A parsed JSON value. -/
inductive Json where
  | obj : JObj → Json
  | arr : JArr → Json
  | str : String → Json
  | num : Int → Json
  | bool : Bool → Json
  | null : Json
deriving DecidableEq

/-- The member list of a JSON object. -/
inductive JObj where
  | nil : JObj
  | cons : String → Json → JObj → JObj
deriving DecidableEq

/-- The element list of a JSON array. -/
inductive JArr where
  | nil : JArr
  | cons : Json → JArr → JArr
deriving DecidableEq
end

/-- The members of a JSON object as a `List`. -/
def JObj.toList : JObj → List (String × Json)
  | .nil => []
  | .cons k v rest => (k, v) :: rest.toList

/-- The elements of a JSON array as a `List`. -/
def JArr.toList : JArr → List Json
  | .nil => []
  | .cons x rest => x :: rest.toList

/-- Build a `JObj` from a `List` of members. -/
def JObj.ofList : List (String × Json) → JObj
  | [] => .nil
  | (k, v) :: rest => .cons k v (JObj.ofList rest)

/-- Build a `JArr` from a `List` of elements. -/
def JArr.ofList : List Json → JArr
  | [] => .nil
  | x :: rest => .cons x (JArr.ofList rest)

theorem JObj_toList_ofList : ∀ l, (JObj.ofList l).toList = l
  | [] => rfl
  | (k, v) :: rest => by simp [JObj.ofList, JObj.toList, JObj_toList_ofList rest]

theorem JArr_toList_ofList : ∀ l, (JArr.ofList l).toList = l
  | [] => rfl
  | x :: rest => by simp [JArr.ofList, JArr.toList, JArr_toList_ofList rest]

/-- `isinstance(v, (dict, list))` of the source (lines 33 and 44). -/
def Json.isContainer : Json → Bool
  | .obj _ => true
  | .arr _ => true
  | _ => false

/-- A JSON scalar: string, number, boolean or null. -/
def Json.isScalar (j : Json) : Bool := ! j.isContainer

mutual

/-- Structural size of a JSON value, used as recursion fuel. -/
def Json.msize : Json → Nat
  | .obj ms => JObj.msize ms + 1
  | .arr es => JArr.msize es + 1
  | _ => 1

/-- Structural size of an object's member list. -/
def JObj.msize : JObj → Nat
  | .nil => 1
  | .cons _ v rest => Json.msize v + JObj.msize rest

/-- Structural size of an array's element list. -/
def JArr.msize : JArr → Nat
  | .nil => 1
  | .cons x rest => Json.msize x + JArr.msize rest

end

theorem json_msize_pos (j : Json) : 0 < j.msize := by
  cases j <;> simp [Json.msize]

theorem jarr_msize_pos (es : JArr) : 0 < es.msize := by
  cases es with
  | nil => simp [JArr.msize]
  | cons x rest => simp [JArr.msize]; have := json_msize_pos x; omega

theorem jobj_msize_pos (ms : JObj) : 0 < ms.msize := by
  cases ms with
  | nil => simp [JObj.msize]
  | cons k v rest => simp [JObj.msize]; have := json_msize_pos v; omega

theorem msize_lt_of_mem_arr : ∀ (es : JArr) (x : Json), x ∈ es.toList →
    x.msize < (Json.arr es).msize
  | .nil, x, h => by simp [JArr.toList] at h
  | .cons y rest, x, h => by
    rcases List.mem_cons.mp (by simpa [JArr.toList] using h) with h | h
    · subst h
      have := jarr_msize_pos rest
      simp [Json.msize, JArr.msize]
      omega
    · have := msize_lt_of_mem_arr rest x h
      have := json_msize_pos y
      simp [Json.msize, JArr.msize] at *
      omega

theorem msize_lt_of_mem_obj : ∀ (ms : JObj) (p : String × Json), p ∈ ms.toList →
    p.2.msize < (Json.obj ms).msize
  | .nil, p, h => by simp [JObj.toList] at h
  | .cons k v rest, p, h => by
    rcases List.mem_cons.mp (by simpa [JObj.toList] using h) with h | h
    · subst h
      have := jobj_msize_pos rest
      simp [Json.msize, JObj.msize]
      omega
    · have := msize_lt_of_mem_obj rest p h
      have := json_msize_pos v
      simp [Json.msize, JObj.msize] at *
      omega

/-- Comma-space separated concatenation, as Python joins list/dict reprs. -/
def joinComma : List String → String
  | [] => ""
  | [s] => s
  | s :: t :: rest => s ++ ", " ++ joinComma (t :: rest)

/-- Escaping of one character inside a Python string repr quoted by `q`
(the model covers the printable range: backslash, quotes, newline, tab, CR). -/
def escapeChar (q c : Char) : List Char :=
  if c = '\\' then ['\\', '\\']
  else if c = q then ['\\', q]
  else if c = '\n' then ['\\', 'n']
  else if c = '\t' then ['\\', 't']
  else if c = '\r' then ['\\', 'r']
  else [c]

/-- Python `repr` of a string: single quotes unless the text contains a
single quote and no double quote. -/
def pyReprStr (s : String) : String :=
  let q : Char := if s.data.contains '\'' && !(s.data.contains '"') then '"' else '\''
  String.mk (q :: (s.data.flatMap (escapeChar q) ++ [q]))

mutual

/-- Python `repr` of a JSON value (dicts and lists as produced by
`json.load`). Needed because `natsorted(..., key=lambda x: str(x[1]))`
stringifies arbitrary array elements. -/
def pyRepr : Json → String
  | .str s => pyReprStr s
  | .num n => intRepr n
  | .bool b => if b then "True" else "False"
  | .null => "None"
  | .arr es => "[" ++ joinComma (pyReprArr es) ++ "]"
  | .obj ms => "\x7b" ++ joinComma (pyReprObj ms) ++ "\x7d"

/-- Reprs of an array's elements. -/
def pyReprArr : JArr → List String
  | .nil => []
  | .cons x rest => pyRepr x :: pyReprArr rest

/-- `repr(key): repr(value)` texts of an object's members. -/
def pyReprObj : JObj → List String
  | .nil => []
  | .cons k v rest => (pyReprStr k ++ ": " ++ pyRepr v) :: pyReprObj rest

end

/-- Python `str` of a JSON value: the string itself for strings, `repr`
otherwise. This is the `str(x[1])` key used for natural sorting of array
elements (source lines 30 and 41). -/
def pyStr (j : Json) : String :=
  match j with
  | Json.str s => s
  | j => pyRepr j

/-- A Python dict from column name to JSON value: insertion-ordered
association list. -/
abbrev Dict := List (String × Json)

/-- `d[k] = v` on a Python dict: overwrite in place if the key is present,
else append at the end. -/
def dictInsert (d : Dict) (k : String) (v : Json) : Dict :=
  if d.any (fun p => p.1 == k) then d.map (fun p => if p.1 == k then (p.1, v) else p)
  else d ++ [(k, v)]

/-- `d.update(e)` on Python dicts: insert `e`'s pairs in order. -/
def dictUpdate (d e : Dict) : Dict := e.foldl (fun acc p => dictInsert acc p.1 p.2) d

/-- `d.get(k)` on a Python dict. -/
def dictGet (d : Dict) (k : String) : Option Json :=
  (d.find? (fun p => p.1 == k)).map Prod.snd

/-- The "does not come strictly after" relation used by
`natsorted(enumerate(value), key=lambda x: str(x[1]))`: compare the natsort
keys of the stringified element values. -/
def pairLe (p q : Nat × Json) : Prop :=
  keyLt (nsKey (pyStr q.2)) (nsKey (pyStr p.2)) = false

instance : DecidableRel pairLe := fun p q =>
  inferInstanceAs (Decidable (_ = false))

instance : IsTotal (Nat × Json) pairLe := by
  constructor
  intro a b
  by_cases h : keyLt (nsKey (pyStr b.2)) (nsKey (pyStr a.2)) = true
  · exact Or.inr (keyLt_asymm _ _ h)
  · exact Or.inl (Bool.eq_false_iff.mpr h)

instance : IsTrans (Nat × Json) pairLe := by
  constructor
  intro a b c hab hbc
  unfold pairLe at *
  by_cases h : keyLt (nsKey (pyStr c.2)) (nsKey (pyStr a.2)) = true
  · rcases keyLt_trichotomy (nsKey (pyStr a.2)) (nsKey (pyStr b.2)) with h' | h' | h'
    · have := keyLt_trans _ _ _ h h'
      rw [this] at hbc; cases hbc
    · rw [← h'] at hbc; rw [hbc] at h; cases h
    · rw [h'] at hab; cases hab
  · exact Bool.eq_false_iff.mpr h

/-- `natsorted(enumerate(value), key=lambda x: str(x[1]))` (source lines 30
and 41): pair each element with its 0-based position, then stable-sort the
pairs by the natsort key of the stringified element value. -/
def natsortEnum (xs : List Json) : List (Nat × Json) :=
  List.insertionSort pairLe xs.enum

theorem snd_mem_of_mem_enumFrom {α : Type} :
    ∀ {l : List α} {n : Nat} {q : Nat × α}, q ∈ l.enumFrom n → q.2 ∈ l := by
  intro l
  induction l with
  | nil => intro n q h; cases h
  | cons a as ih =>
    intro n q h
    rcases List.mem_cons.mp h with h | h
    · subst h; exact List.mem_cons_self a as
    · exact List.mem_cons_of_mem a (ih h)

theorem snd_mem_of_mem_natsortEnum {xs : List Json} {q : Nat × Json}
    (h : q ∈ natsortEnum xs) : q.2 ∈ xs := by
  have : q ∈ xs.enum := (List.mem_insertionSort pairLe).mp h
  exact snd_mem_of_mem_enumFrom this

/-- Fuelled worker for `flatten_json`: the fuel only bounds the recursion
depth (the recursive calls under an array traverse the elements in
natural-sort order, which the structural-recursion checker cannot follow),
keeping the definition kernel-computable. -/
def flattenF : Nat → Json → String → String → Dict
  | 0, _, _, _ => []
  | fuel + 1, data, parent_key, sep =>
    match data with
    | Json.obj ms =>
      ((ms.toList.map (fun p =>
        let new_key := if parent_key = "" then p.1 else parent_key ++ sep ++ p.1
        match p.2 with
        | Json.obj ms2 => [flattenF fuel (Json.obj ms2) new_key sep]
        | Json.arr ys =>
          (natsortEnum ys.toList).map (fun q =>
            let list_key := new_key ++ "_" ++ natRepr (q.1 + 1)
            if q.2.isContainer then flattenF fuel q.2 list_key sep
            else [(list_key, q.2)])
        | v => [[(new_key, v)]])).flatten).foldl dictUpdate []
    | Json.arr es =>
      ((natsortEnum es.toList).map (fun q =>
        let list_key := (if parent_key = "" then "item" else parent_key) ++ "_" ++ natRepr (q.1 + 1)
        if q.2.isContainer then flattenF fuel q.2 list_key sep
        else [(list_key, q.2)])).foldl dictUpdate []
    | v => [(parent_key, v)]

theorem flattenF_congr : ∀ f g data parent_key sep, Json.msize data ≤ f →
    Json.msize data ≤ g → flattenF f data parent_key sep = flattenF g data parent_key sep := by
  intro f
  induction f with
  | zero => intro g data pk sep hf _; have := json_msize_pos data; omega
  | succ f ih =>
    intro g data pk sep hf hg
    cases g with
    | zero => have := json_msize_pos data; omega
    | succ g =>
      cases data with
      | obj ms =>
        show ((ms.toList.map _).flatten).foldl dictUpdate []
          = ((ms.toList.map _).flatten).foldl dictUpdate []
        have hmap : ms.toList.map (fun p =>
            let new_key := if pk = "" then p.1 else pk ++ sep ++ p.1
            match p.2 with
            | Json.obj ms2 => [flattenF f (Json.obj ms2) new_key sep]
            | Json.arr ys =>
              (natsortEnum ys.toList).map (fun q : Nat × Json =>
                let list_key := new_key ++ "_" ++ natRepr (q.1 + 1)
                if q.2.isContainer then flattenF f q.2 list_key sep
                else [(list_key, q.2)])
            | v => [[(new_key, v)]])
          = ms.toList.map (fun p =>
            let new_key := if pk = "" then p.1 else pk ++ sep ++ p.1
            match p.2 with
            | Json.obj ms2 => [flattenF g (Json.obj ms2) new_key sep]
            | Json.arr ys =>
              (natsortEnum ys.toList).map (fun q : Nat × Json =>
                let list_key := new_key ++ "_" ++ natRepr (q.1 + 1)
                if q.2.isContainer then flattenF g q.2 list_key sep
                else [(list_key, q.2)])
            | v => [[(new_key, v)]]) := by
          apply List.map_congr_left
          intro p hp
          have hps := msize_lt_of_mem_obj ms p hp
          obtain ⟨k, v⟩ := p
          try dsimp only
          cases v with
          | obj ms2 =>
            try dsimp only
            rw [ih g (Json.obj ms2) _ sep (by simp [Json.msize] at *; omega)
              (by simp [Json.msize] at *; omega)]
          | arr ys =>
            have hmap2 : ∀ nk : String, (natsortEnum ys.toList).map (fun q : Nat × Json =>
                let list_key := nk ++ "_" ++ natRepr (q.1 + 1)
                if q.2.isContainer then flattenF f q.2 list_key sep
                else [(list_key, q.2)])
              = (natsortEnum ys.toList).map (fun q : Nat × Json =>
                let list_key := nk ++ "_" ++ natRepr (q.1 + 1)
                if q.2.isContainer then flattenF g q.2 list_key sep
                else [(list_key, q.2)]) := by
              intro nk
              apply List.map_congr_left
              intro q hq
              have hqm := msize_lt_of_mem_arr ys q.2 (snd_mem_of_mem_natsortEnum hq)
              try dsimp only
              by_cases hc : q.2.isContainer = true
              · rw [if_pos hc, if_pos hc,
                  ih g q.2 _ sep (by simp [Json.msize] at *; omega)
                    (by simp [Json.msize] at *; omega)]
              · rw [if_neg hc, if_neg hc]
            try dsimp only
            exact hmap2 _
          | str s => rfl
          | num n => rfl
          | bool b => rfl
          | null => rfl
        rw [hmap]
      | arr es =>
        show ((natsortEnum es.toList).map _).foldl dictUpdate []
          = ((natsortEnum es.toList).map _).foldl dictUpdate []
        have hmap : (natsortEnum es.toList).map (fun q =>
            let list_key := (if pk = "" then "item" else pk) ++ "_" ++ natRepr (q.1 + 1)
            if q.2.isContainer then flattenF f q.2 list_key sep
            else [(list_key, q.2)])
          = (natsortEnum es.toList).map (fun q =>
            let list_key := (if pk = "" then "item" else pk) ++ "_" ++ natRepr (q.1 + 1)
            if q.2.isContainer then flattenF g q.2 list_key sep
            else [(list_key, q.2)]) := by
          apply List.map_congr_left
          intro q hq
          have hqm := msize_lt_of_mem_arr es q.2 (snd_mem_of_mem_natsortEnum hq)
          try dsimp only
          by_cases hc : q.2.isContainer = true
          · rw [if_pos hc, if_pos hc,
              ih g q.2 _ sep (by simp [Json.msize] at *; omega)
                (by simp [Json.msize] at *; omega)]
          · rw [if_neg hc, if_neg hc]
        rw [hmap]
      | str s => rfl
      | num n => rfl
      | bool b => rfl
      | null => rfl

/-- Flatten a nested JSON value into a Python dict, expanding lists into
separate columns keyed by original 1-based position but visited in
natural-sort order of their stringified values: models `flatten_json`
(source lines 16-51). Each step of the source's loops updates the running
`items` dict with one partial dict (`items.update(..)` for containers,
`items[k] = v` as the singleton update `[(k, v)]` for scalars); `items` at
the end is the left fold of `dictUpdate` over those pieces in loop order. -/
def flatten_json (data : Json) (parent_key : String) (sep : String) : Dict :=
  flattenF (Json.msize data) data parent_key sep

theorem flatten_json_fuel (data : Json) (pk sep : String) :
    flatten_json data pk sep = flattenF (Json.msize data + 1) data pk sep :=
  flattenF_congr (Json.msize data) (Json.msize data + 1) data pk sep (Nat.le_refl _) (by omega)

/-- Fuel-free unfolding of `flatten_json` on an object. -/
theorem flatten_json_obj (ms : JObj) (pk sep : String) :
    flatten_json (Json.obj ms) pk sep =
      ((ms.toList.map (fun p =>
        let new_key := if pk = "" then p.1 else pk ++ sep ++ p.1
        match p.2 with
        | Json.obj ms2 => [flatten_json (Json.obj ms2) new_key sep]
        | Json.arr ys =>
          (natsortEnum ys.toList).map (fun q : Nat × Json =>
            let list_key := new_key ++ "_" ++ natRepr (q.1 + 1)
            if q.2.isContainer then flatten_json q.2 list_key sep
            else [(list_key, q.2)])
        | v => [[(new_key, v)]])).flatten).foldl dictUpdate [] := by
  rw [flatten_json_fuel]
  show ((ms.toList.map _).flatten).foldl dictUpdate [] = _
  congr 1
  congr 1
  apply List.map_congr_left
  intro p hp
  have hps := msize_lt_of_mem_obj ms p hp
  obtain ⟨k, v⟩ := p
  try dsimp only
  cases v with
  | obj ms2 =>
    try dsimp only
    rw [flattenF_congr _ _ (Json.obj ms2) _ sep (by simp [Json.msize] at *; omega) (Nat.le_refl _)]
    rfl
  | arr ys =>
    try dsimp only
    apply List.map_congr_left
    intro q hq
    have hqm := msize_lt_of_mem_arr ys q.2 (snd_mem_of_mem_natsortEnum hq)
    try dsimp only
    by_cases hc : q.2.isContainer = true
    · rw [if_pos hc, if_pos hc,
        flattenF_congr _ _ q.2 _ sep (by simp [Json.msize] at *; omega) (Nat.le_refl _)]
      rfl
    · rw [if_neg hc, if_neg hc]
  | str s => rfl
  | num n => rfl
  | bool b => rfl
  | null => rfl

/-- Fuel-free unfolding of `flatten_json` on an array. -/
theorem flatten_json_arr (es : JArr) (pk sep : String) :
    flatten_json (Json.arr es) pk sep =
      ((natsortEnum es.toList).map (fun q : Nat × Json =>
        let list_key := (if pk = "" then "item" else pk) ++ "_" ++ natRepr (q.1 + 1)
        if q.2.isContainer then flatten_json q.2 list_key sep
        else [(list_key, q.2)])).foldl dictUpdate [] := by
  rw [flatten_json_fuel]
  show ((natsortEnum es.toList).map _).foldl dictUpdate [] = _
  congr 1
  apply List.map_congr_left
  intro q hq
  have hqm := msize_lt_of_mem_arr es q.2 (snd_mem_of_mem_natsortEnum hq)
  try dsimp only
  by_cases hc : q.2.isContainer = true
  · rw [if_pos hc, if_pos hc,
      flattenF_congr _ _ q.2 _ sep (by simp [Json.msize] at *; omega) (Nat.le_refl _)]
    rfl
  · rw [if_neg hc, if_neg hc]

/-- `flatten_json` on a scalar records the accumulated prefix key as-is
(source lines 48-49: `items[parent_key] = data`, with no special case for
an empty prefix). -/
theorem flatten_json_scalar (data : Json) (pk sep : String) (h : data.isScalar = true) :
    flatten_json data pk sep = [(pk, data)] := by
  cases data with
  | obj ms => simp [Json.isScalar, Json.isContainer] at h
  | arr es => simp [Json.isScalar, Json.isContainer] at h
  | str s => rw [flatten_json_fuel]; rfl
  | num n => rw [flatten_json_fuel]; rfl
  | bool b => rw [flatten_json_fuel]; rfl
  | null => rw [flatten_json_fuel]; rfl

/-- Fuelled worker for the specification-side variants of `flatten_json`:
array elements are visited in their original positional order (plain
`enumerate`, no natural-sort reordering). With `dictSem = true` the partial
dicts are combined with Python dict-update semantics (the comparison
variant of the refinement claim); with `dictSem = false` they are
concatenated, so every generated key is kept with its multiplicity (used to
state that no two nesting paths generate the same column name). -/
def flattenVarF (dictSem : Bool) : Nat → Json → String → String → Dict
  | 0, _, _, _ => []
  | fuel + 1, data, parent_key, sep =>
    match data with
    | Json.obj ms =>
      (fun ps : List Dict => if dictSem then ps.foldl dictUpdate [] else ps.flatten)
      ((ms.toList.map (fun p =>
        let new_key := if parent_key = "" then p.1 else parent_key ++ sep ++ p.1
        match p.2 with
        | Json.obj ms2 => [flattenVarF dictSem fuel (Json.obj ms2) new_key sep]
        | Json.arr ys =>
          ys.toList.enum.map (fun q : Nat × Json =>
            let list_key := new_key ++ "_" ++ natRepr (q.1 + 1)
            if q.2.isContainer then flattenVarF dictSem fuel q.2 list_key sep
            else [(list_key, q.2)])
        | v => [[(new_key, v)]])).flatten)
    | Json.arr es =>
      (fun ps : List Dict => if dictSem then ps.foldl dictUpdate [] else ps.flatten)
      (es.toList.enum.map (fun q : Nat × Json =>
        let list_key := (if parent_key = "" then "item" else parent_key) ++ "_" ++ natRepr (q.1 + 1)
        if q.2.isContainer then flattenVarF dictSem fuel q.2 list_key sep
        else [(list_key, q.2)]))
    | v => [(parent_key, v)]

theorem flattenVarF_congr (b : Bool) : ∀ f g data parent_key sep, Json.msize data ≤ f →
    Json.msize data ≤ g → flattenVarF b f data parent_key sep = flattenVarF b g data parent_key sep := by
  intro f
  induction f with
  | zero => intro g data pk sep hf _; have := json_msize_pos data; omega
  | succ f ih =>
    intro g data pk sep hf hg
    cases g with
    | zero => have := json_msize_pos data; omega
    | succ g =>
      cases data with
      | obj ms =>
        show (fun ps : List Dict => if b then ps.foldl dictUpdate [] else ps.flatten)
            ((ms.toList.map _).flatten)
          = (fun ps : List Dict => if b then ps.foldl dictUpdate [] else ps.flatten)
            ((ms.toList.map _).flatten)
        congr 2
        apply List.map_congr_left
        intro p hp
        have hps := msize_lt_of_mem_obj ms p hp
        obtain ⟨k, v⟩ := p
        try dsimp only
        cases v with
        | obj ms2 =>
          try dsimp only
          rw [ih g (Json.obj ms2) _ sep (by simp [Json.msize] at *; omega)
            (by simp [Json.msize] at *; omega)]
        | arr ys =>
          try dsimp only
          apply List.map_congr_left
          intro q hq
          have hqm := msize_lt_of_mem_arr ys q.2 (snd_mem_of_mem_enumFrom hq)
          try dsimp only
          by_cases hc : q.2.isContainer = true
          · rw [if_pos hc, if_pos hc,
              ih g q.2 _ sep (by simp [Json.msize] at *; omega)
                (by simp [Json.msize] at *; omega)]
          · rw [if_neg hc, if_neg hc]
        | str s => rfl
        | num n => rfl
        | bool b => rfl
        | null => rfl
      | arr es =>
        show (fun ps : List Dict => if b then ps.foldl dictUpdate [] else ps.flatten)
            (es.toList.enum.map _)
          = (fun ps : List Dict => if b then ps.foldl dictUpdate [] else ps.flatten)
            (es.toList.enum.map _)
        congr 1
        apply List.map_congr_left
        intro q hq
        have hqm := msize_lt_of_mem_arr es q.2 (snd_mem_of_mem_enumFrom hq)
        try dsimp only
        by_cases hc : q.2.isContainer = true
        · rw [if_pos hc, if_pos hc,
            ih g q.2 _ sep (by simp [Json.msize] at *; omega)
              (by simp [Json.msize] at *; omega)]
        · rw [if_neg hc, if_neg hc]
      | str s => rfl
      | num n => rfl
      | bool b => rfl
      | null => rfl

/-- A positional-order variant of `flatten_json` (refinement comparison):
identical to `flatten_json` except that array elements are iterated in
their original `enumerate` order, without the natural-sort reordering. -/
def flatten_json_noSort (data : Json) (parent_key sep : String) : Dict :=
  flattenVarF true (Json.msize data) data parent_key sep

/-- All generated key/value pairs of the positional-order flattening, kept
with multiplicity (pieces concatenated instead of dict-updated): its key
list names every joined column name one nesting path at a time, so its
`Nodup` states the claim's "no two distinct nesting paths produce the same
joined column name". -/
def flattenJoin (data : Json) (parent_key sep : String) : Dict :=
  flattenVarF false (Json.msize data) data parent_key sep

theorem flattenVarF_msize_fuel (b : Bool) (data : Json) (pk sep : String) :
    flattenVarF b (Json.msize data) data pk sep
      = flattenVarF b (Json.msize data + 1) data pk sep :=
  flattenVarF_congr b (Json.msize data) (Json.msize data + 1) data pk sep (Nat.le_refl _) (by omega)

theorem flattenVarF_msize_obj (b : Bool) (ms : JObj) (pk sep : String) :
    flattenVarF b (Json.msize (Json.obj ms)) (Json.obj ms) pk sep =
      (fun ps : List Dict => if b then ps.foldl dictUpdate [] else ps.flatten)
      ((ms.toList.map (fun p =>
        let new_key := if pk = "" then p.1 else pk ++ sep ++ p.1
        match p.2 with
        | Json.obj ms2 => [flattenVarF b (Json.msize (Json.obj ms2)) (Json.obj ms2) new_key sep]
        | Json.arr ys =>
          ys.toList.enum.map (fun q : Nat × Json =>
            let list_key := new_key ++ "_" ++ natRepr (q.1 + 1)
            if q.2.isContainer then flattenVarF b (Json.msize q.2) q.2 list_key sep
            else [(list_key, q.2)])
        | v => [[(new_key, v)]])).flatten) := by
  rw [flattenVarF_msize_fuel]
  show (fun ps : List Dict => if b then ps.foldl dictUpdate [] else ps.flatten)
      ((ms.toList.map _).flatten) = _
  congr 2
  apply List.map_congr_left
  intro p hp
  have hps := msize_lt_of_mem_obj ms p hp
  obtain ⟨k, v⟩ := p
  try dsimp only
  cases v with
  | obj ms2 =>
    try dsimp only
    rw [flattenVarF_congr b _ _ (Json.obj ms2) _ sep (by simp [Json.msize] at *; omega) (Nat.le_refl _)]
  | arr ys =>
    try dsimp only
    apply List.map_congr_left
    intro q hq
    have hqm := msize_lt_of_mem_arr ys q.2 (snd_mem_of_mem_enumFrom hq)
    try dsimp only
    by_cases hc : q.2.isContainer = true
    · rw [if_pos hc, if_pos hc,
        flattenVarF_congr b _ _ q.2 _ sep (by simp [Json.msize] at *; omega) (Nat.le_refl _)]
    · rw [if_neg hc, if_neg hc]
  | str s => rfl
  | num n => rfl
  | bool b => rfl
  | null => rfl

theorem flattenVarF_msize_arr (b : Bool) (es : JArr) (pk sep : String) :
    flattenVarF b (Json.msize (Json.arr es)) (Json.arr es) pk sep =
      (fun ps : List Dict => if b then ps.foldl dictUpdate [] else ps.flatten)
      (es.toList.enum.map (fun q : Nat × Json =>
        let list_key := (if pk = "" then "item" else pk) ++ "_" ++ natRepr (q.1 + 1)
        if q.2.isContainer then flattenVarF b (Json.msize q.2) q.2 list_key sep
        else [(list_key, q.2)])) := by
  rw [flattenVarF_msize_fuel]
  show (fun ps : List Dict => if b then ps.foldl dictUpdate [] else ps.flatten)
      (es.toList.enum.map _) = _
  congr 1
  apply List.map_congr_left
  intro q hq
  have hqm := msize_lt_of_mem_arr es q.2 (snd_mem_of_mem_enumFrom hq)
  try dsimp only
  by_cases hc : q.2.isContainer = true
  · rw [if_pos hc, if_pos hc,
      flattenVarF_congr b _ _ q.2 _ sep (by simp [Json.msize] at *; omega) (Nat.le_refl _)]
  · rw [if_neg hc, if_neg hc]

/-- Fuel-free unfolding of `flatten_json_noSort` on an object. -/
theorem flatten_json_noSort_obj (ms : JObj) (pk sep : String) :
    flatten_json_noSort (Json.obj ms) pk sep =
      ((ms.toList.map (fun p =>
        let new_key := if pk = "" then p.1 else pk ++ sep ++ p.1
        match p.2 with
        | Json.obj ms2 => [flatten_json_noSort (Json.obj ms2) new_key sep]
        | Json.arr ys =>
          ys.toList.enum.map (fun q : Nat × Json =>
            let list_key := new_key ++ "_" ++ natRepr (q.1 + 1)
            if q.2.isContainer then flatten_json_noSort q.2 list_key sep
            else [(list_key, q.2)])
        | v => [[(new_key, v)]])).flatten).foldl dictUpdate [] := by
  have h := flattenVarF_msize_obj true ms pk sep
  simpa using h

/-- Fuel-free unfolding of `flatten_json_noSort` on an array. -/
theorem flatten_json_noSort_arr (es : JArr) (pk sep : String) :
    flatten_json_noSort (Json.arr es) pk sep =
      (es.toList.enum.map (fun q : Nat × Json =>
        let list_key := (if pk = "" then "item" else pk) ++ "_" ++ natRepr (q.1 + 1)
        if q.2.isContainer then flatten_json_noSort q.2 list_key sep
        else [(list_key, q.2)])).foldl dictUpdate [] := by
  have h := flattenVarF_msize_arr true es pk sep
  simpa using h

/-- `flatten_json_noSort` on a scalar. -/
theorem flatten_json_noSort_scalar (data : Json) (pk sep : String) (h : data.isScalar = true) :
    flatten_json_noSort data pk sep = [(pk, data)] := by
  cases data with
  | obj ms => simp [Json.isScalar, Json.isContainer] at h
  | arr es => simp [Json.isScalar, Json.isContainer] at h
  | str s => rw [flatten_json_noSort, flattenVarF_msize_fuel]; rfl
  | num n => rw [flatten_json_noSort, flattenVarF_msize_fuel]; rfl
  | bool b => rw [flatten_json_noSort, flattenVarF_msize_fuel]; rfl
  | null => rw [flatten_json_noSort, flattenVarF_msize_fuel]; rfl

/-- Fuel-free unfolding of `flattenJoin` on an object. -/
theorem flattenJoin_obj (ms : JObj) (pk sep : String) :
    flattenJoin (Json.obj ms) pk sep =
      ((ms.toList.map (fun p =>
        let new_key := if pk = "" then p.1 else pk ++ sep ++ p.1
        match p.2 with
        | Json.obj ms2 => [flattenJoin (Json.obj ms2) new_key sep]
        | Json.arr ys =>
          ys.toList.enum.map (fun q : Nat × Json =>
            let list_key := new_key ++ "_" ++ natRepr (q.1 + 1)
            if q.2.isContainer then flattenJoin q.2 list_key sep
            else [(list_key, q.2)])
        | v => [[(new_key, v)]])).flatten).flatten := by
  have h := flattenVarF_msize_obj false ms pk sep
  simpa using h

/-- Fuel-free unfolding of `flattenJoin` on an array. -/
theorem flattenJoin_arr (es : JArr) (pk sep : String) :
    flattenJoin (Json.arr es) pk sep =
      (es.toList.enum.map (fun q : Nat × Json =>
        let list_key := (if pk = "" then "item" else pk) ++ "_" ++ natRepr (q.1 + 1)
        if q.2.isContainer then flattenJoin q.2 list_key sep
        else [(list_key, q.2)])).flatten := by
  have h := flattenVarF_msize_arr false es pk sep
  simpa using h

/-- `flattenJoin` on a scalar. -/
theorem flattenJoin_scalar (data : Json) (pk sep : String) (h : data.isScalar = true) :
    flattenJoin data pk sep = [(pk, data)] := by
  cases data with
  | obj ms => simp [Json.isScalar, Json.isContainer] at h
  | arr es => simp [Json.isScalar, Json.isContainer] at h
  | str s => rw [flattenJoin, flattenVarF_msize_fuel]; rfl
  | num n => rw [flattenJoin, flattenVarF_msize_fuel]; rfl
  | bool b => rw [flattenJoin, flattenVarF_msize_fuel]; rfl
  | null => rw [flattenJoin, flattenVarF_msize_fuel]; rfl

/-- Attempt to match the regex `chunk_(\d+)` at the head of the character
list: the literal marker `chunk_` followed by a maximal (greedy) non-empty
run of digits. -/
def chunkAt (cs : List Char) : Option Nat :=
  match cs with
  | 'c' :: 'h' :: 'u' :: 'n' :: 'k' :: '_' :: rest =>
      let ds := rest.takeWhile isDig
      if ds.isEmpty then none else some (digitsToNat ds)
  | _ => none

/-- `re.search(r'chunk_(\d+)', filename)` (source line 58): try the pattern
at each position, left to right, and parse the digits of the first match. -/
def searchChunk : List Char → Option Nat
  | [] => none
  | c :: cs =>
    match chunkAt (c :: cs) with
    | some n => some n
    | none => searchChunk cs

/-- The elements at odd positions of a list. Applied to `natSplit`'s output
this is exactly `re.findall(r'\d+', filename)`, the maximal digit runs. -/
def oddIdx {α : Type} : List α → List α
  | [] => []
  | [_] => []
  | _ :: b :: rest => b :: oddIdx rest

/-- Extract the chunk number from a filename: the digits after the first
`chunk_` marker; otherwise the last digit run anywhere in the name;
otherwise 0. Models `extract_chunk_number` (source lines 53-66). -/
def extract_chunk_number (filename : String) : Nat :=
  match searchChunk filename.data with
  | some n => n
  | none =>
    match (oddIdx (natSplit filename.data)).getLast? with
    | some run => digitsToNat run
    | none => 0

/-- `calculate_time_offset` (source lines 68-72): reduce the chunk number
by one, clamped at zero. -/
def calculate_time_offset (chunk_number : Int) : Int := max 0 (chunk_number - 1)

/-- One candidate file of the input directory: its name and the result of
reading and parsing it (`none` models a `json.JSONDecodeError`, `IOError`
or `UnicodeDecodeError` at source line 118). -/
structure SrcFile where
  name : String
  parsed : Option Json
deriving DecidableEq

/-- Ordering of files by extracted chunk number (source line 90). -/
def fileChunkLe (f g : SrcFile) : Prop :=
  extract_chunk_number f.name ≤ extract_chunk_number g.name

instance : DecidableRel fileChunkLe := fun f g =>
  inferInstanceAs (Decidable (_ ≤ _))

instance : IsTotal SrcFile fileChunkLe := ⟨fun f g => Nat.le_total _ _⟩

instance : IsTrans SrcFile fileChunkLe := ⟨fun _ _ _ h h' => Nat.le_trans h h'⟩

/-- `json_files.sort(key=lambda x: extract_chunk_number(x.name))` (source
line 90): Python's stable sort, modelled by stable insertion sort. -/
def sortFilesByChunk (files : List SrcFile) : List SrcFile :=
  List.insertionSort fileChunkLe files

/-- Per-file processing (source lines 104-120): flatten the parsed document
and insert the derived `5_sec_time_offset` column; a file that failed to
parse yields nothing and is skipped with a warning. -/
def fileRecord (f : SrcFile) : Option Dict :=
  f.parsed.map (fun j =>
    dictInsert (flatten_json j "" "_") "5_sec_time_offset"
      (Json.num (calculate_time_offset (extract_chunk_number f.name))))

/-- `flattened_data_list` after the first pass: one record per successfully
parsed file, in chunk-number order. -/
def flattenedDataList (files : List SrcFile) : List Dict :=
  (sortFilesByChunk files).filterMap fileRecord

/-- `all_fieldnames`, the running union of the records' key sets (source
lines 101 and 116). A Python `set` enumerates in an unspecified order; the
pipeline model fixes insertion order (first occurrence first), and the
schema claims are additionally settled against an arbitrary enumeration
via `schemaOfEnum`. -/
def setUnionKeys (recs : List Dict) : List String :=
  recs.foldl
    (fun acc r => (r.map Prod.fst).foldl (fun a k => if k ∈ a then a else a ++ [k]) acc) []

/-- The final `fieldnames` (source lines 125-133): drop the reserved
time-offset column from the union, sort by `natural_sort_key`, and put
`5_sec_time_offset` first. -/
def fieldnamesOf (recs : List Dict) : List String :=
  "5_sec_time_offset"
    :: List.insertionSort natLe ((setUnionKeys recs).filter (fun k => k ≠ "5_sec_time_offset"))

/-- The schema computed from one enumeration of the (already discarded) set
`all_fieldnames` (source lines 125-133): `list(all_fieldnames)` enumerates
a Python `set` in an unspecified run-dependent order, so the enumeration is
a parameter; the list is stable-sorted by `natural_sort_key` and the
reserved column is prepended. -/
def schemaOfEnum (keys : List String) : List String :=
  "5_sec_time_offset" :: List.insertionSort natLe keys

/-- The text written to a CSV cell for one value by `csv.DictWriter`:
`None` becomes the empty string, any other value its `str` text. -/
def cellStr (v : Json) : String :=
  match v with
  | Json.null => ""
  | v => pyStr v

/-- One data row (source line 144): for each schema column, the record's
value if present, else the empty string. -/
def rowOf (fieldnames : List String) (r : Dict) : List String :=
  fieldnames.map (fun c =>
    match dictGet r c with
    | some v => cellStr v
    | none => "")

/-- The fatal error kinds of `json_directory_to_csv`: missing or
non-directory input path, no `*.json` files, or no file parsed. -/
inductive ConvError where
  | dirMissing
  | noJsonFiles
  | noValidDocuments
deriving DecidableEq

/-- The output table: header (schema) and data rows. -/
structure CsvOut where
  fieldnames : List String
  rows : List (List String)
deriving DecidableEq

/-- The conversion job `json_directory_to_csv` (source lines 74-153) on an
abstract directory: `none` models a missing or non-directory input path,
otherwise the list of files matching `*.json` in file-system enumeration
order, each with its parse result. Output-path derivation and the physical
CSV write are I/O fringe; the model returns the written header and rows. -/
def json_directory_to_csv (dir : Option (List SrcFile)) : Except ConvError CsvOut :=
  match dir with
  | none => Except.error ConvError.dirMissing
  | some files =>
    if files.isEmpty then Except.error ConvError.noJsonFiles
    else
      let recs := flattenedDataList files
      if recs.isEmpty then Except.error ConvError.noValidDocuments
      else
        let fns := fieldnamesOf recs
        Except.ok ⟨fns, recs.map (rowOf fns)⟩

theorem pyLowerChar_idem (c : Char) : pyLowerChar (pyLowerChar c) = pyLowerChar c := by
  have h : pyLowerChar c = c ∨ pyLowerChar (pyLowerChar c) = pyLowerChar c := by
    unfold pyLowerChar
    split <;> first | (right; decide) | (left; rfl)
  rcases h with h | h
  · rw [h]; exact h
  · exact h

theorem isDig_pyLowerChar (c : Char) : isDig (pyLowerChar c) = isDig c := by
  unfold pyLowerChar
  split <;> first | decide | rfl

theorem tokToElem_nondigit {t : List Char} (h : ∀ c ∈ t, isDig c = false) :
    tokToElem t = NatElem.str (t.map pyLowerChar) := by
  unfold tokToElem
  rw [if_neg]
  rintro ⟨hne, hall⟩
  cases t with
  | nil => exact hne rfl
  | cons c cs =>
    have := h c (List.mem_cons_self c cs)
    have := List.all_eq_true.mp hall c (List.mem_cons_self c cs)
    simp_all

theorem tokToElem_digit {t : List Char} (hne : t ≠ []) (hall : ∀ c ∈ t, isDig c = true) :
    tokToElem t = NatElem.int (digitsToNat t) := by
  unfold tokToElem
  rw [if_pos]
  exact ⟨hne, List.all_eq_true.mpr (fun c hc => hall c hc)⟩

/-- The shape invariant of keys produced by `natural_sort_key`: text runs at
even positions (digit-free and already lower-cased), integers at odd
positions, first and last elements text runs. -/
inductive GoodKey : List NatElem → Prop
  | last (t : List Char) : (∀ c ∈ t, isDig c = false) → t.map pyLowerChar = t →
      GoodKey [NatElem.str t]
  | step (t : List Char) (n : Nat) (rest : List NatElem) :
      (∀ c ∈ t, isDig c = false) → t.map pyLowerChar = t → GoodKey rest →
      GoodKey (NatElem.str t :: NatElem.int n :: rest)

theorem goodKey_map_tokToElem : ∀ {l : List (List Char)}, AltRuns l → GoodKey (l.map tokToElem) := by
  intro l h
  induction h with
  | single s hs =>
    rw [List.map_singleton, tokToElem_nondigit hs]
    refine GoodKey.last (s.map pyLowerChar) ?_ ?_
    · intro c hc
      rcases List.mem_map.mp hc with ⟨c₀, hc₀, rfl⟩
      rw [isDig_pyLowerChar]
      exact hs c₀ hc₀
    · rw [List.map_map]
      apply List.map_congr_left
      intro c _
      exact pyLowerChar_idem c
  | step s d rest hs hd hdall _ ih =>
    rw [List.map_cons, List.map_cons, tokToElem_nondigit hs, tokToElem_digit hd hdall]
    refine GoodKey.step (s.map pyLowerChar) (digitsToNat d) _ ?_ ?_ ih
    · intro c hc
      rcases List.mem_map.mp hc with ⟨c₀, hc₀, rfl⟩
      rw [isDig_pyLowerChar]
      exact hs c₀ hc₀
    · rw [List.map_map]
      apply List.map_congr_left
      intro c _
      exact pyLowerChar_idem c

theorem goodKey_natural_sort_key (s : String) : GoodKey (natural_sort_key s) :=
  goodKey_map_tokToElem (altRuns_natSplit s.data)

/-- Python's comparison of one key element with another: ordinary `<`/`==`
comparison between two `str` runs or two `int` runs; comparing an `int`
with a `str` raises `TypeError`, modelled by `none`. -/
def elemCmpPy : NatElem → NatElem → Option Ordering
  | .str a, .str b =>
      some (if lexLt charLt a b then Ordering.lt
            else if a = b then Ordering.eq else Ordering.gt)
  | .int a, .int b =>
      some (if a < b then Ordering.lt else if a = b then Ordering.eq else Ordering.gt)
  | _, _ => none

/-- Python's comparison of two whole sort keys (list comparison):
element-wise, the first non-equal pair decides, a strict prefix is smaller;
`none` models the `TypeError` of a mixed element comparison. -/
def keyCmpPy : List NatElem → List NatElem → Option Ordering
  | [], [] => some Ordering.eq
  | [], _ :: _ => some Ordering.lt
  | _ :: _, [] => some Ordering.gt
  | a :: as, b :: bs =>
    match elemCmpPy a b with
    | some Ordering.eq => keyCmpPy as bs
    | r => r

theorem keyCmpPy_cons_isSome {a b : NatElem} {as bs : List NatElem}
    (h : (elemCmpPy a b).isSome = true) (hrec : (keyCmpPy as bs).isSome = true) :
    (keyCmpPy (a :: as) (b :: bs)).isSome = true := by
  show (match elemCmpPy a b with | some Ordering.eq => keyCmpPy as bs | r => r).isSome = true
  rcases ho : elemCmpPy a b with - | o
  · rw [ho] at h; cases h
  · cases o with
    | lt => rfl
    | eq => exact hrec
    | gt => rfl

theorem goodKey_cmp_isSome : ∀ {k₁ k₂ : List NatElem}, GoodKey k₁ → GoodKey k₂ →
    (keyCmpPy k₁ k₂).isSome = true := by
  intro k₁ k₂ h₁
  induction h₁ generalizing k₂ with
  | last s _ _ =>
    intro h₂
    cases h₂ with
    | last t _ _ => exact keyCmpPy_cons_isSome rfl rfl
    | step t n rest _ _ _ => exact keyCmpPy_cons_isSome rfl rfl
  | step s n rest _ _ _ ih =>
    intro h₂
    cases h₂ with
    | last t _ _ => exact keyCmpPy_cons_isSome rfl rfl
    | step t m rest₂ _ _ hrest₂ =>
      exact keyCmpPy_cons_isSome rfl (keyCmpPy_cons_isSome rfl (ih hrest₂))

theorem goodKey_get : ∀ {l : List NatElem}, GoodKey l → ∀ i, ∀ h : i < l.length,
    (i % 2 = 0 → ∃ t : List Char, l.get ⟨i, h⟩ = NatElem.str t ∧
      (∀ c ∈ t, isDig c = false) ∧ t.map pyLowerChar = t) ∧
    (i % 2 = 1 → ∃ n : Nat, l.get ⟨i, h⟩ = NatElem.int n) := by
  intro l hl
  induction hl with
  | last t ht hlow =>
    intro i h
    match i, h with
    | 0, h => exact ⟨fun _ => ⟨t, rfl, ht, hlow⟩, fun hc => by omega⟩
    | i + 1, h => simp at h
  | step t n rest ht hlow _ ih =>
    intro i h
    match i, h with
    | 0, h => exact ⟨fun _ => ⟨t, rfl, ht, hlow⟩, fun hc => by omega⟩
    | 1, h => exact ⟨fun hc => by omega, fun _ => ⟨n, rfl⟩⟩
    | i + 2, h =>
      have h' : i < rest.length := by simpa using h
      have := ih i h'
      constructor
      · intro he
        exact this.1 (by omega)
      · intro ho
        exact this.2 (by omega)

/-- Claim C10: for every string (with ASCII decimal digit characters, the
domain on which the model's `isDig` coincides with Python's `str.isdigit`),
`natural_sort_key` returns an alternating list in which every even-index
element is a digit-free lower-cased text run and every odd-index element is
an integer; consequently Python's element-wise comparison of the keys of
any two strings only ever compares string with string or integer with
integer (`keyCmpPy` never returns `none`), so sorting strings by this key
is well-defined and never fails on a mixed-type comparison. -/
theorem claim_C10_key_alternation_safe_sort (s : String) :
    (∀ i, ∀ h : i < (natural_sort_key s).length,
      (i % 2 = 0 → ∃ t : List Char, (natural_sort_key s).get ⟨i, h⟩ = NatElem.str t ∧
        (∀ c ∈ t, isDig c = false) ∧ t.map pyLowerChar = t) ∧
      (i % 2 = 1 → ∃ n : Nat, (natural_sort_key s).get ⟨i, h⟩ = NatElem.int n)) ∧
    (∀ t : String, (keyCmpPy (natural_sort_key s) (natural_sort_key t)).isSome = true) := by
  constructor
  · exact goodKey_get (goodKey_natural_sort_key s)
  · intro t
    exact goodKey_cmp_isSome (goodKey_natural_sort_key s) (goodKey_natural_sort_key t)

/-- Witness for C10 at the concrete string `"Ab12cd"` (and `"x03"` for the
comparison part). -/
theorem claim_C10_key_alternation_safe_sort_witness :
    (∃ t : List Char, (natural_sort_key "Ab12cd").get ⟨0, by decide⟩ = NatElem.str t ∧
      (∀ c ∈ t, isDig c = false) ∧ t.map pyLowerChar = t) ∧
    (keyCmpPy (natural_sort_key "Ab12cd") (natural_sort_key "x03")).isSome = true :=
  ⟨((claim_C10_key_alternation_safe_sort "Ab12cd").1 0 (by decide)).1 rfl,
    (claim_C10_key_alternation_safe_sort "Ab12cd").2 "x03"⟩

/-- Counterexample to claim C7: flattening the bare top-level scalar `5`
with the empty prefix yields the single key `""` — the empty string, not a
non-empty synthetic placeholder name (source line 49 stores
`items[parent_key] = data` with no special case for an empty prefix). -/
theorem claim_C7_counterexample :
    (flatten_json (Json.num 5) "" "_").map Prod.fst = [""] ∧ ("" : String).length = 0 := by
  constructor
  · rfl
  · rfl

/-- Claim C7 (amended): for every document that is a bare top-level scalar,
`flatten_json` called with the empty prefix records the scalar under the
accumulated prefix key unchanged, i.e. the single key of the resulting
record is the empty string (there is no synthetic placeholder). -/
theorem claim_C7_bare_scalar_empty_key (v : Json) (sep : String) (h : v.isScalar = true) :
    flatten_json v "" sep = [("", v)] :=
  flatten_json_scalar v "" sep h

/-- Witness for the amended C7 at the concrete scalar `5`. -/
theorem claim_C7_bare_scalar_empty_key_witness :
    (Json.num 5).isScalar = true ∧ flatten_json (Json.num 5) "" "_" = [("", Json.num 5)] :=
  ⟨by decide, claim_C7_bare_scalar_empty_key (Json.num 5) "_" (by decide)⟩

theorem sorted_natLe_perm_eq : ∀ {l₁ l₂ : List String}, l₁.Perm l₂ → l₁.Sorted natLe →
    l₂.Sorted natLe → (∀ a ∈ l₁, ∀ b ∈ l₁, natural_sort_key a = natural_sort_key b → a = b) →
    l₁ = l₂ := by
  intro l₁
  induction l₁ with
  | nil =>
    intro l₂ hperm _ _ _
    exact (List.Perm.eq_nil hperm.symm).symm
  | cons a as ih =>
    intro l₂ hperm hs₁ hs₂ hinj
    cases l₂ with
    | nil =>
      have := hperm.eq_nil
      simp at this
    | cons b bs =>
      have hab : a = b := by
        by_cases he : a = b
        · exact he
        · have ha2 : a ∈ b :: bs := hperm.mem_iff.mp (List.mem_cons_self a as)
          have hb1 : b ∈ a :: as := hperm.mem_iff.mpr (List.mem_cons_self b bs)
          have ha2' : a ∈ bs := by
            rcases List.mem_cons.mp ha2 with h | h
            · exact absurd h he
            · exact h
          have hb1' : b ∈ as := by
            rcases List.mem_cons.mp hb1 with h | h
            · exact absurd h.symm he
            · exact h
          have h₁ : natLe a b := (List.sorted_cons.mp hs₁).1 b hb1'
          have h₂ : natLe b a := (List.sorted_cons.mp hs₂).1 a ha2'
          exact hinj a (List.mem_cons_self a as) b (List.mem_cons_of_mem a hb1')
            (natLe_antisymm_key h₁ h₂)
      subst hab
      have htl : as.Perm bs := hperm.cons_inv
      rw [ih htl (List.sorted_cons.mp hs₁).2 (List.sorted_cons.mp hs₂).2
        (fun x hx y hy hk => hinj x (List.mem_cons_of_mem a hx) y (List.mem_cons_of_mem a hy) hk)]

/-- Counterexample to claim C2: the distinct column names `"a1"` and `"A1"`
have equal natural-sort keys, and the stable sort keeps the enumeration
order of such ties, so two runs that enumerate the same key set in
different orders (Python `set` iteration order is run-dependent) produce
different Schemas. -/
theorem claim_C2_counterexample :
    ["a1", "A1"].Nodup ∧ ["A1", "a1"].Nodup ∧ List.Perm ["a1", "A1"] ["A1", "a1"] ∧
    natural_sort_key "a1" = natural_sort_key "A1" ∧
    schemaOfEnum ["a1", "A1"] ≠ schemaOfEnum ["A1", "a1"] := by
  exact ⟨by decide, by decide, by decide, by decide, by decide⟩

/-- Claim C2 (amended): the Schema (reserved time-offset column first, then
the remaining columns sorted by the natural-sort key) is a function of the
set of column names only — independent of the enumeration order in which
the names are listed — provided no two distinct names in the set share the
same natural-sort key. (Without that proviso the stable sort keeps the
run-dependent enumeration order within a tie group, as the counterexample
shows.) -/
theorem claim_C2_schema_order_independent (e₁ e₂ : List String)
    (hperm : e₁.Perm e₂)
    (hinj : ∀ a ∈ e₁, ∀ b ∈ e₁, natural_sort_key a = natural_sort_key b → a = b) :
    schemaOfEnum e₁ = schemaOfEnum e₂ := by
  unfold schemaOfEnum
  congr 1
  apply sorted_natLe_perm_eq
  · exact (List.perm_insertionSort natLe e₁).trans (hperm.trans (List.perm_insertionSort natLe e₂).symm)
  · exact List.sorted_insertionSort natLe e₁
  · exact List.sorted_insertionSort natLe e₂
  · intro a ha b hb hk
    exact hinj a ((List.perm_insertionSort natLe e₁).mem_iff.mp ha)
      b ((List.perm_insertionSort natLe e₁).mem_iff.mp hb) hk

/-- Witness for the amended C2 at two enumerations of `{"b","a10","a2"}`. -/
theorem claim_C2_schema_order_independent_witness :
    List.Perm ["b", "a10", "a2"] ["a2", "b", "a10"] ∧
    (∀ a ∈ ["b", "a10", "a2"], ∀ b ∈ ["b", "a10", "a2"],
      natural_sort_key a = natural_sort_key b → a = b) ∧
    schemaOfEnum ["b", "a10", "a2"] = schemaOfEnum ["a2", "b", "a10"] :=
  ⟨by decide, by decide,
    claim_C2_schema_order_independent ["b", "a10", "a2"] ["a2", "b", "a10"] (by decide) (by decide)⟩

theorem mem_foldl_ins (ks : List String) : ∀ (acc : List String) (k : String),
    (k ∈ ks.foldl (fun a k => if k ∈ a then a else a ++ [k]) acc) ↔ k ∈ acc ∨ k ∈ ks := by
  induction ks with
  | nil => simp
  | cons x xs ih =>
    intro acc k
    simp only [List.foldl_cons]
    rw [ih]
    by_cases hx : x ∈ acc
    · rw [if_pos hx]
      constructor
      · rintro (h | h)
        · exact Or.inl h
        · exact Or.inr (List.mem_cons_of_mem x h)
      · rintro (h | h)
        · exact Or.inl h
        · rcases List.mem_cons.mp h with h | h
          · subst h; exact Or.inl hx
          · exact Or.inr h
    · rw [if_neg hx]
      constructor
      · rintro (h | h)
        · rcases List.mem_append.mp h with h | h
          · exact Or.inl h
          · simp at h; subst h; exact Or.inr (List.mem_cons_self _ _)
        · exact Or.inr (List.mem_cons_of_mem x h)
      · rintro (h | h)
        · exact Or.inl (List.mem_append.mpr (Or.inl h))
        · rcases List.mem_cons.mp h with h | h
          · subst h; exact Or.inl (List.mem_append.mpr (Or.inr (by simp)))
          · exact Or.inr h

theorem nodup_foldl_ins (ks : List String) : ∀ (acc : List String), acc.Nodup →
    (ks.foldl (fun a k => if k ∈ a then a else a ++ [k]) acc).Nodup := by
  induction ks with
  | nil => intro acc h; exact h
  | cons x xs ih =>
    intro acc h
    simp only [List.foldl_cons]
    by_cases hx : x ∈ acc
    · rw [if_pos hx]; exact ih acc h
    · rw [if_neg hx]
      exact ih _ (by simp [List.nodup_append, h, hx])

theorem mem_setUnionKeys_aux (recs : List Dict) : ∀ (acc : List String) (k : String),
    (k ∈ recs.foldl
      (fun acc r => (r.map Prod.fst).foldl (fun a k => if k ∈ a then a else a ++ [k]) acc) acc)
      ↔ k ∈ acc ∨ ∃ r ∈ recs, k ∈ r.map Prod.fst := by
  induction recs with
  | nil => simp
  | cons r rs ih =>
    intro acc k
    simp only [List.foldl_cons]
    rw [ih, mem_foldl_ins]
    constructor
    · rintro ((h | h) | ⟨r', hr', hk⟩)
      · exact Or.inl h
      · exact Or.inr ⟨r, List.mem_cons_self r rs, h⟩
      · exact Or.inr ⟨r', List.mem_cons_of_mem r hr', hk⟩
    · rintro (h | ⟨r', hr', hk⟩)
      · exact Or.inl (Or.inl h)
      · rcases List.mem_cons.mp hr' with h | h
        · subst h; exact Or.inl (Or.inr hk)
        · exact Or.inr ⟨r', h, hk⟩

theorem mem_setUnionKeys (recs : List Dict) (k : String) :
    k ∈ setUnionKeys recs ↔ ∃ r ∈ recs, k ∈ r.map Prod.fst := by
  unfold setUnionKeys
  rw [mem_setUnionKeys_aux]
  simp

theorem nodup_setUnionKeys_aux (recs : List Dict) : ∀ (acc : List String), acc.Nodup →
    (recs.foldl
      (fun acc r => (r.map Prod.fst).foldl (fun a k => if k ∈ a then a else a ++ [k]) acc)
      acc).Nodup := by
  induction recs with
  | nil => intro acc h; exact h
  | cons r rs ih =>
    intro acc h
    simp only [List.foldl_cons]
    exact ih _ (nodup_foldl_ins _ acc h)

theorem nodup_setUnionKeys (recs : List Dict) : (setUnionKeys recs).Nodup :=
  nodup_setUnionKeys_aux recs [] List.nodup_nil

/-- Claim C5: for every non-empty collection of flattened records, the
Schema equals the reserved time-offset column followed by the union of all
record keys excluding the reserved column, sorted by the natural-sort key
and free of duplicates; the reserved column appears exactly once, in first
position. -/
theorem claim_C5_schema_aggregation (recs : List Dict) (hne : recs ≠ []) :
    ∃ L : List String,
      fieldnamesOf recs = "5_sec_time_offset" :: L ∧
      L.Sorted natLe ∧ L.Nodup ∧ "5_sec_time_offset" ∉ L ∧
      (∀ k, k ∈ L ↔ (k ≠ "5_sec_time_offset" ∧ ∃ r ∈ recs, k ∈ r.map Prod.fst)) ∧
      (fieldnamesOf recs).count "5_sec_time_offset" = 1 := by
  clear hne
  refine ⟨List.insertionSort natLe
      ((setUnionKeys recs).filter (fun k => k ≠ "5_sec_time_offset")), rfl, ?_, ?_, ?_, ?_, ?_⟩
  · exact List.sorted_insertionSort natLe _
  · exact (List.perm_insertionSort natLe _).nodup_iff.mpr
      ((nodup_setUnionKeys recs).filter _)
  · intro hmem
    have := (List.perm_insertionSort natLe _).mem_iff.mp hmem
    have := (List.mem_filter.mp this).2
    simp at this
  · intro k
    rw [(List.perm_insertionSort natLe _).mem_iff, List.mem_filter]
    rw [mem_setUnionKeys]
    constructor
    · rintro ⟨h₁, h₂⟩
      exact ⟨by simpa using h₂, h₁⟩
    · rintro ⟨h₁, h₂⟩
      exact ⟨h₂, by simpa using h₁⟩
  · show List.count "5_sec_time_offset" (fieldnamesOf recs) = 1
    unfold fieldnamesOf
    rw [List.count_cons]
    have hz : List.count "5_sec_time_offset"
        (List.insertionSort natLe
          ((setUnionKeys recs).filter (fun k => k ≠ "5_sec_time_offset"))) = 0 := by
      rw [List.count_eq_zero]
      intro hmem
      have := (List.perm_insertionSort natLe _).mem_iff.mp hmem
      have := (List.mem_filter.mp this).2
      simp at this
    rw [hz]
    simp

/-- Witness for C5 at a concrete two-record collection. -/
theorem claim_C5_schema_aggregation_witness :
    ([[("b", Json.num 1)], [("a10", Json.num 2), ("a2", Json.num 3)]] : List Dict) ≠ [] ∧
    ∃ L : List String,
      fieldnamesOf [[("b", Json.num 1)], [("a10", Json.num 2), ("a2", Json.num 3)]]
        = "5_sec_time_offset" :: L ∧
      L.Sorted natLe ∧ L.Nodup ∧ "5_sec_time_offset" ∉ L ∧
      (∀ k, k ∈ L ↔ (k ≠ "5_sec_time_offset" ∧
        ∃ r ∈ ([[("b", Json.num 1)], [("a10", Json.num 2), ("a2", Json.num 3)]] : List Dict),
          k ∈ r.map Prod.fst)) ∧
      (fieldnamesOf [[("b", Json.num 1)], [("a10", Json.num 2), ("a2", Json.num 3)]]).count
        "5_sec_time_offset" = 1 :=
  ⟨by decide, claim_C5_schema_aggregation _ (by decide)⟩

theorem length_filterMap_eq_length_filter {α β : Type} (g : α → Option β) :
    ∀ l : List α, (l.filterMap g).length = (l.filter (fun x => (g x).isSome)).length := by
  intro l
  induction l with
  | nil => rfl
  | cons x xs ih =>
    rcases hg : g x with - | b <;> simp [List.filterMap_cons, hg, List.filter_cons, ih]

theorem flattenedDataList_length (files : List SrcFile) :
    (flattenedDataList files).length = (files.filter (fun f => f.parsed.isSome)).length := by
  unfold flattenedDataList
  rw [length_filterMap_eq_length_filter]
  have hperm : (sortFilesByChunk files).Perm files := List.perm_insertionSort _ _
  have := (hperm.filter (fun f => (fileRecord f).isSome)).length_eq
  rw [this]
  congr 1
  apply List.filter_congr
  intro f _
  unfold fileRecord
  simp

/-- Claim C4: the conversion job raises an error if and only if the input
path is missing or not a directory, or no file matches the JSON glob, or
every candidate file fails to parse; an individual parse failure is not an
error of the job — the file is skipped and every remaining file is still
processed (the output has one row per parseable file), and the job succeeds
provided at least one file parses. -/
theorem claim_C4_error_conditions (dir : Option (List SrcFile)) :
    ((json_directory_to_csv dir).isOk = true ↔
      ∃ files, dir = some files ∧ files ≠ [] ∧ ∃ f ∈ files, f.parsed.isSome = true) ∧
    (∀ files out, dir = some files → json_directory_to_csv dir = Except.ok out →
      out.rows.length = (files.filter (fun f => f.parsed.isSome)).length) := by
  constructor
  · cases dir with
    | none =>
      simp [json_directory_to_csv, Except.isOk, Except.toBool]
    | some files =>
      unfold json_directory_to_csv
      by_cases h1 : files.isEmpty
      · have hfe : files = [] := List.isEmpty_iff.mp h1
        subst hfe
        simp [Except.isOk, Except.toBool]
      · simp only [h1, if_false, Bool.false_eq_true]
        by_cases h2 : (flattenedDataList files).isEmpty
        · simp only [h2, if_true]
          simp only [Except.isOk, Except.toBool, Bool.false_eq_true, false_iff]
          rintro ⟨files', heq, -, f, hf, hps⟩
          injection heq with heq
          subst heq
          rw [List.isEmpty_iff] at h2
          have hlen := flattenedDataList_length files
          rw [h2] at hlen
          have : f ∈ files.filter (fun f => f.parsed.isSome) := List.mem_filter.mpr ⟨hf, hps⟩
          have hpos : 0 < (files.filter (fun f => f.parsed.isSome)).length :=
            List.length_pos.mpr (List.ne_nil_of_mem this)
          simp at hlen
          omega
        · simp only [h2, if_false, Bool.false_eq_true]
          simp only [Except.isOk, Except.toBool, true_iff]
          refine ⟨files, rfl, fun hnil => h1 (by simp [hnil]), ?_⟩
          rw [List.isEmpty_iff] at h2
          have hlen := flattenedDataList_length files
          have hpos : 0 < (files.filter (fun f => f.parsed.isSome)).length := by
            rcases hflen : (flattenedDataList files).length with - | n
            · exact absurd (List.length_eq_zero.mp hflen) h2
            · omega
          rcases hex : files.filter (fun f => f.parsed.isSome) with - | ⟨f, rest⟩
          · rw [hex] at hpos; simp at hpos
          · have hf : f ∈ files.filter (fun f => f.parsed.isSome) := by
              rw [hex]; exact List.mem_cons_self f rest
            have := List.mem_filter.mp hf
            exact ⟨f, this.1, this.2⟩
  · intro files out heq hok
    subst heq
    unfold json_directory_to_csv at hok
    by_cases h1 : files.isEmpty
    · simp [h1] at hok
    · simp only [h1, if_false, Bool.false_eq_true] at hok
      by_cases h2 : (flattenedDataList files).isEmpty
      · simp [h2] at hok
      · simp only [h2, if_false, Bool.false_eq_true, Except.ok.injEq] at hok
        subst hok
        show ((flattenedDataList files).map _).length = _
        rw [List.length_map]
        exact flattenedDataList_length files

/-- Witness for C4 at a directory with one parseable and one unparseable
file: the job succeeds and yields one row. -/
theorem claim_C4_error_conditions_witness :
    (json_directory_to_csv (some [⟨"a_chunk_002.json", some (Json.num 7)⟩,
        ⟨"a_chunk_001.json", none⟩])).isOk = true ∧
    (CsvOut.mk ["5_sec_time_offset", ""] [["1", "7"]]).rows.length
      = (([⟨"a_chunk_002.json", some (Json.num 7)⟩, ⟨"a_chunk_001.json", none⟩] :
          List SrcFile).filter (fun f => f.parsed.isSome)).length :=
  ⟨(claim_C4_error_conditions _).1.mpr ⟨_, rfl, by decide, by decide⟩,
    (claim_C4_error_conditions _).2 _ ⟨["5_sec_time_offset", ""], [["1", "7"]]⟩ rfl rfl⟩

/-- Claim C6: on success the output table has exactly one data row per
successfully parsed document, the rows appear in ascending chunk-index
order of the source filenames (one row per record of `flattenedDataList`,
which lists the parseable files in sorted-by-chunk order), and every schema
column absent from a record renders as the empty string in that record's
row. -/
theorem claim_C6_output_rows (files : List SrcFile) (out : CsvOut)
    (h : json_directory_to_csv (some files) = Except.ok out) :
    out.rows.length = (files.filter (fun f => f.parsed.isSome)).length ∧
    (((sortFilesByChunk files).filter (fun f => f.parsed.isSome)).map
      (fun f => extract_chunk_number f.name)).Sorted (fun a b => a ≤ b) ∧
    out.rows = (flattenedDataList files).map (rowOf out.fieldnames) ∧
    (∀ r ∈ flattenedDataList files, ∀ i : Nat, ∀ c : String, out.fieldnames[i]? = some c →
      dictGet r c = none → (rowOf out.fieldnames r)[i]? = some "") := by
  have hout : out = ⟨fieldnamesOf (flattenedDataList files),
      (flattenedDataList files).map (rowOf (fieldnamesOf (flattenedDataList files)))⟩ := by
    unfold json_directory_to_csv at h
    by_cases h1 : files.isEmpty
    · simp [h1] at h
    · simp only [h1, if_false, Bool.false_eq_true] at h
      by_cases h2 : (flattenedDataList files).isEmpty
      · simp [h2] at h
      · simp only [h2, if_false, Bool.false_eq_true, Except.ok.injEq] at h
        exact h.symm
  subst hout
  refine ⟨?_, ?_, rfl, ?_⟩
  · show ((flattenedDataList files).map _).length = _
    rw [List.length_map]
    exact flattenedDataList_length files
  · have hs : (sortFilesByChunk files).Sorted fileChunkLe := List.sorted_insertionSort _ _
    have hs2 : ((sortFilesByChunk files).filter (fun f => f.parsed.isSome)).Sorted fileChunkLe :=
      hs.filter _
    exact List.Pairwise.map _ (fun a b hab => hab) hs2
  · intro r hr i c hc hnone
    unfold rowOf
    rw [List.getElem?_map, hc]
    simp [hnone]

/-- Witness for C6 at a two-file directory whose documents have disjoint
keys: two rows in chunk order, and the column absent from the first record
renders as the empty string. -/
theorem claim_C6_output_rows_witness :
    (CsvOut.mk ["5_sec_time_offset", "x", "y"] [["0", "1", ""], ["1", "", "2"]]).rows.length
      = (([⟨"b_chunk_002.json", some (Json.obj (JObj.cons "y" (Json.num 2) JObj.nil))⟩,
           ⟨"a_chunk_001.json", some (Json.obj (JObj.cons "x" (Json.num 1) JObj.nil))⟩] :
          List SrcFile).filter (fun f => f.parsed.isSome)).length ∧
    (((sortFilesByChunk [⟨"b_chunk_002.json", some (Json.obj (JObj.cons "y" (Json.num 2) JObj.nil))⟩,
           ⟨"a_chunk_001.json", some (Json.obj (JObj.cons "x" (Json.num 1) JObj.nil))⟩]).filter
        (fun f => f.parsed.isSome)).map (fun f => extract_chunk_number f.name)).Sorted
      (fun a b => a ≤ b) ∧
    (CsvOut.mk ["5_sec_time_offset", "x", "y"] [["0", "1", ""], ["1", "", "2"]]).rows
      = (flattenedDataList [⟨"b_chunk_002.json", some (Json.obj (JObj.cons "y" (Json.num 2) JObj.nil))⟩,
           ⟨"a_chunk_001.json", some (Json.obj (JObj.cons "x" (Json.num 1) JObj.nil))⟩]).map
        (rowOf ["5_sec_time_offset", "x", "y"]) ∧
    (rowOf ["5_sec_time_offset", "x", "y"]
      [("x", Json.num 1), ("5_sec_time_offset", Json.num 0)])[2]? = some "" := by
  have h := claim_C6_output_rows
    [⟨"b_chunk_002.json", some (Json.obj (JObj.cons "y" (Json.num 2) JObj.nil))⟩,
     ⟨"a_chunk_001.json", some (Json.obj (JObj.cons "x" (Json.num 1) JObj.nil))⟩]
    ⟨["5_sec_time_offset", "x", "y"], [["0", "1", ""], ["1", "", "2"]]⟩ rfl
  exact ⟨h.1, h.2.1, h.2.2.1,
    h.2.2.2 [("x", Json.num 1), ("5_sec_time_offset", Json.num 0)] (by decide) 2 "y" rfl rfl⟩

theorem oddIdx_head_irrel {α : Type} (x y : α) (t : List α) :
    oddIdx (x :: t) = oddIdx (y :: t) := by
  cases t <;> rfl

theorem natSplit_cons_nondigit (c : Char) (cs : List Char) (h : isDig c = false)
    (s : List Char) (rest : List (List Char)) (hr : natSplit cs = s :: rest) :
    natSplit (c :: cs) = (c :: s) :: rest := by
  unfold natSplit
  rw [hr, if_neg (by simp [h])]

theorem natSplit_cons_digit_nil_head (c : Char) (cs : List Char) (h : isDig c = true)
    (d : List Char) (rest : List (List Char)) (hr : natSplit cs = [] :: d :: rest) :
    natSplit (c :: cs) = [] :: (c :: d) :: rest := by
  unfold natSplit
  rw [hr, if_pos h]
  dsimp only
  rw [if_pos rfl]

theorem natSplit_cons_digit_head_ne (c : Char) (cs : List Char) (h : isDig c = true)
    (s d : List Char) (rest : List (List Char)) (hr : natSplit cs = s :: d :: rest)
    (hs : s ≠ []) :
    natSplit (c :: cs) = [] :: [c] :: s :: d :: rest := by
  unfold natSplit
  rw [hr, if_pos h]
  dsimp only
  rw [if_neg hs]

theorem natSplit_cons_digit_single (c : Char) (cs : List Char) (h : isDig c = true)
    (s : List Char) (hr : natSplit cs = [s]) :
    natSplit (c :: cs) = [] :: [c] :: [s] := by
  unfold natSplit
  rw [hr, if_pos h]

theorem natSplit_all_nondigit : ∀ (b : List Char), (∀ c ∈ b, isDig c = false) →
    natSplit b = [b] := by
  intro b
  induction b with
  | nil => intro _; rfl
  | cons c b' ih =>
    intro h
    have hr := ih (fun x hx => h x (List.mem_cons_of_mem c hx))
    exact natSplit_cons_nondigit c b' (h c (List.mem_cons_self c b')) b' [] hr

theorem natSplit_digits_append : ∀ (ds : List Char), ds ≠ [] →
    (∀ c ∈ ds, isDig c = true) → ∀ (b : List Char), (∀ c ∈ b, isDig c = false) →
    natSplit (ds ++ b) = [[], ds, b] := by
  intro ds
  induction ds with
  | nil => intro h; exact absurd rfl h
  | cons e ds' ih =>
    intro _ hall b hb
    have he : isDig e = true := hall e (List.mem_cons_self e ds')
    by_cases hne : ds' = []
    · subst hne
      have hr := natSplit_all_nondigit b hb
      show natSplit (e :: b) = [[], [e], b]
      exact natSplit_cons_digit_single e b he b hr
    · have hr := ih hne (fun x hx => hall x (List.mem_cons_of_mem e hx)) b hb
      show natSplit (e :: (ds' ++ b)) = [[], e :: ds', b]
      exact natSplit_cons_digit_nil_head e (ds' ++ b) he ds' [b] hr

theorem oddIdx_cons_cons {α : Type} (x y : α) (t : List α) :
    oddIdx (x :: y :: t) = y :: oddIdx t := rfl

/-- Invariant under which prepending characters cannot change the last
digit run: there is at least one digit run, and either the leading
non-digit run is non-empty or there are at least two digit runs. -/
def lastRunStable (cs : List Char) : Prop :=
  oddIdx (natSplit cs) ≠ [] ∧
  ((natSplit cs).head? ≠ some [] ∨ 2 ≤ (oddIdx (natSplit cs)).length)

theorem lastRun_step (c : Char) (cs : List Char) (h : lastRunStable cs) :
    lastRunStable (c :: cs) ∧
    (oddIdx (natSplit (c :: cs))).getLast? = (oddIdx (natSplit cs)).getLast? := by
  obtain ⟨h1, h2⟩ := h
  rcases hr : natSplit cs with - | ⟨s, rest⟩
  · exact absurd hr (natSplit_ne_nil cs)
  by_cases hc : isDig c = true
  · cases rest with
    | nil =>
      rw [hr] at h1
      simp [oddIdx] at h1
    | cons d rest' =>
      rw [hr] at h1 h2
      by_cases hs : s = []
      · subst hs
        have hnew := natSplit_cons_digit_nil_head c cs hc d rest' hr
        have hlen : 2 ≤ (oddIdx ([] :: d :: rest')).length := by
          rcases h2 with h2 | h2
          · simp at h2
          · exact h2
        rw [oddIdx_cons_cons] at hlen
        have hne' : oddIdx rest' ≠ [] := by
          intro hz
          rw [hz] at hlen
          simp at hlen
        refine ⟨⟨?_, ?_⟩, ?_⟩
        · rw [hnew, oddIdx_cons_cons]
          simp
        · right
          rw [hnew, oddIdx_cons_cons]
          simp only [List.length_cons]
          have : 0 < (oddIdx rest').length := List.length_pos.mpr hne'
          omega
        · rw [hnew, oddIdx_cons_cons, oddIdx_cons_cons]
          rcases hq : oddIdx rest' with - | ⟨z, zs⟩
          · exact absurd hq hne'
          · rw [List.getLast?_cons_cons, List.getLast?_cons_cons]
      · have hnew := natSplit_cons_digit_head_ne c cs hc s d rest' hr hs
        refine ⟨⟨?_, ?_⟩, ?_⟩
        · rw [hnew, oddIdx_cons_cons]
          simp
        · right
          rw [hnew, oddIdx_cons_cons, oddIdx_cons_cons]
          simp only [List.length_cons]
          omega
        · rw [hnew, oddIdx_cons_cons, oddIdx_cons_cons]
          rw [List.getLast?_cons_cons]
  · have hcf : isDig c = false := by
      cases hv : isDig c
      · rfl
      · exact absurd hv hc
    have hnew := natSplit_cons_nondigit c cs hcf s rest hr
    rw [hr] at h1 h2
    have hodd : oddIdx (natSplit (c :: cs)) = oddIdx (s :: rest) := by
      rw [hnew]
      exact oddIdx_head_irrel _ _ _
    refine ⟨⟨?_, ?_⟩, ?_⟩
    · rw [hodd]; exact h1
    · left
      rw [hnew]
      simp
    · rw [hodd]

theorem lastRun_prepend : ∀ (a cs : List Char), lastRunStable cs →
    lastRunStable (a ++ cs) ∧
    (oddIdx (natSplit (a ++ cs))).getLast? = (oddIdx (natSplit cs)).getLast? := by
  intro a
  induction a with
  | nil => intro cs h; exact ⟨h, rfl⟩
  | cons x a' ih =>
    intro cs h
    obtain ⟨h1, h2⟩ := ih cs h
    have hstep := lastRun_step x (a' ++ cs) h1
    exact ⟨hstep.1, hstep.2.trans h2⟩

theorem lastRun_getLast_of_decomp (a ds b : List Char) (hne : ds ≠ [])
    (hds : ∀ c ∈ ds, isDig c = true) (hb : ∀ c ∈ b, isDig c = false)
    (hbd : a = [] ∨ ∃ a' c, a = a' ++ [c] ∧ isDig c = false) :
    (oddIdx (natSplit (a ++ ds ++ b))).getLast? = some ds := by
  rcases hbd with rfl | ⟨a', c, rfl, hc⟩
  · rw [List.nil_append, natSplit_digits_append ds hne hds b hb]
    rfl
  · have hr0 := natSplit_digits_append ds hne hds b hb
    have hbase : natSplit (c :: (ds ++ b)) = [c] :: ds :: [b] :=
      natSplit_cons_nondigit c (ds ++ b) hc [] (ds :: [b]) hr0
    have hQ : lastRunStable (c :: (ds ++ b)) := by
      constructor
      · rw [hbase, oddIdx_cons_cons]
        simp
      · left
        rw [hbase]
        simp
    have hpre := lastRun_prepend a' (c :: (ds ++ b)) hQ
    have harr : a' ++ [c] ++ ds ++ b = a' ++ (c :: (ds ++ b)) := by simp
    rw [harr, hpre.2, hbase]
    rfl

theorem chunkAt_some_iff (cs : List Char) (n : Nat) :
    chunkAt cs = some n ↔ ∃ rest : List Char,
      cs = 'c' :: 'h' :: 'u' :: 'n' :: 'k' :: '_' :: rest ∧
      rest.takeWhile isDig ≠ [] ∧ n = digitsToNat (rest.takeWhile isDig) := by
  unfold chunkAt
  split
  · rename_i rest
    dsimp only
    by_cases hd : (rest.takeWhile isDig).isEmpty = true
    · rw [if_pos hd]
      constructor
      · intro h; cases h
      · rintro ⟨rest', heq, hne, -⟩
        simp only [List.cons.injEq, true_and] at heq
        subst heq
        exact absurd (List.isEmpty_iff.mp hd) hne
    · rw [if_neg hd]
      constructor
      · intro h
        injection h with h
        exact ⟨rest, rfl, fun hz => hd (by rw [hz]; rfl), h.symm⟩
      · rintro ⟨rest', heq, -, rfl⟩
        simp only [List.cons.injEq, true_and] at heq
        subst heq
        rfl
  · rename_i hnp
    constructor
    · intro h; cases h
    · rintro ⟨rest, heq, -, -⟩
      exact absurd heq (by intro hh; exact hnp rest hh)

theorem searchChunk_cons_eq (x : Char) (cs : List Char) :
    searchChunk (x :: cs) =
      (match chunkAt (x :: cs) with
        | some n => some n
        | none => searchChunk cs) := rfl

theorem searchChunk_cons_none {x : Char} {cs : List Char}
    (h : searchChunk (x :: cs) = none) :
    chunkAt (x :: cs) = none ∧ searchChunk cs = none := by
  rw [searchChunk_cons_eq] at h
  rcases hv : chunkAt (x :: cs) with - | n
  · rw [hv] at h; exact ⟨rfl, h⟩
  · rw [hv] at h; cases h

theorem searchChunk_leftmost : ∀ (pre cs rest : List Char),
    cs = pre ++ ('c' :: 'h' :: 'u' :: 'n' :: 'k' :: '_' :: rest) →
    rest.takeWhile isDig ≠ [] →
    (∀ pre₂ rest₂ : List Char, cs = pre₂ ++ ('c' :: 'h' :: 'u' :: 'n' :: 'k' :: '_' :: rest₂) →
      rest₂.takeWhile isDig ≠ [] → pre.length ≤ pre₂.length) →
    searchChunk cs = some (digitsToNat (rest.takeWhile isDig)) := by
  intro pre
  induction pre with
  | nil =>
    intro cs rest heq hne _
    rw [List.nil_append] at heq
    subst heq
    have hca : chunkAt ('c' :: 'h' :: 'u' :: 'n' :: 'k' :: '_' :: rest)
        = some (digitsToNat (rest.takeWhile isDig)) :=
      (chunkAt_some_iff _ _).mpr ⟨rest, rfl, hne, rfl⟩
    rw [searchChunk_cons_eq, hca]
  | cons x pre' ih =>
    intro cs rest heq hne hmin
    subst heq
    have hca : chunkAt (x :: (pre' ++ ('c' :: 'h' :: 'u' :: 'n' :: 'k' :: '_' :: rest))) = none := by
      rcases hv : chunkAt (x :: (pre' ++ ('c' :: 'h' :: 'u' :: 'n' :: 'k' :: '_' :: rest)))
        with - | n
      · rfl
      · obtain ⟨rest₂, heq₂, hne₂, -⟩ := (chunkAt_some_iff _ _).mp hv
        refine absurd (hmin [] rest₂ ?_ hne₂) (by simp)
        rw [List.nil_append, List.cons_append]
        exact heq₂
    rw [List.cons_append, searchChunk_cons_eq, hca]
    exact ih (pre' ++ ('c' :: 'h' :: 'u' :: 'n' :: 'k' :: '_' :: rest)) rest rfl hne
      (fun pre₂ rest₂ heq₂ hne₂ => by
        have := hmin (x :: pre₂) rest₂
          (by rw [List.cons_append, List.cons_append, heq₂]) hne₂
        simpa using this)

theorem searchChunk_none_of_no_marker : ∀ (cs : List Char),
    (∀ pre rest : List Char, cs = pre ++ ('c' :: 'h' :: 'u' :: 'n' :: 'k' :: '_' :: rest) →
      rest.takeWhile isDig = []) →
    searchChunk cs = none := by
  intro cs
  induction cs with
  | nil => intro _; rfl
  | cons x cs' ih =>
    intro h
    have hca : chunkAt (x :: cs') = none := by
      rcases hv : chunkAt (x :: cs') with - | n
      · rfl
      · obtain ⟨rest, heq, hne, -⟩ := (chunkAt_some_iff _ _).mp hv
        exact absurd (h [] rest (by rw [List.nil_append]; exact heq)) hne
    rw [searchChunk_cons_eq, hca]
    exact ih (fun pre rest heq => h (x :: pre) rest (by rw [heq]; rfl))

theorem no_marker_of_searchChunk_none : ∀ (cs : List Char), searchChunk cs = none →
    ∀ pre rest : List Char, cs = pre ++ ('c' :: 'h' :: 'u' :: 'n' :: 'k' :: '_' :: rest) →
    rest.takeWhile isDig = [] := by
  intro cs
  induction cs with
  | nil =>
    intro _ pre rest heq
    cases pre <;> simp at heq
  | cons x cs' ih =>
    intro hnone pre rest heq
    obtain ⟨hca, hrec⟩ := searchChunk_cons_none hnone
    by_cases hemp : rest.takeWhile isDig = []
    · exact hemp
    · exfalso
      cases pre with
      | nil =>
        rw [List.nil_append] at heq
        have : chunkAt (x :: cs') = some (digitsToNat (rest.takeWhile isDig)) :=
          (chunkAt_some_iff _ _).mpr ⟨rest, heq, hemp, rfl⟩
        rw [this] at hca
        cases hca
      | cons y pre' =>
        injection heq with h1 h2
        exact hemp (ih hrec pre' rest h2)

/-- Formalisation of claim C3's marker rule (for the counterexample only):
the marker token `chunk` — with no underscore — immediately followed by a
run of digits, tried at each position left to right. The code's regex is
`chunk_(\d+)`, which additionally requires an underscore between the marker
and the digits. -/
def chunkNoUnderscoreAt (cs : List Char) : Option Nat :=
  match cs with
  | 'c' :: 'h' :: 'u' :: 'n' :: 'k' :: rest =>
      let ds := rest.takeWhile isDig
      if ds.isEmpty then none else some (digitsToNat ds)
  | _ => none

/-- Leftmost search for the claim's marker rule. -/
def searchChunkNoUnderscore : List Char → Option Nat
  | [] => none
  | c :: cs =>
    match chunkNoUnderscoreAt (c :: cs) with
    | some n => some n
    | none => searchChunkNoUnderscore cs

/-- Counterexample to claim C3: the filename `"chunk7_then_9"` contains the
marker token `chunk` followed by the digit run `7`, so the claim prescribes
the result `7`; the code's regex `chunk_(\d+)` does not match (no
underscore before the digits), and the fallback returns the last digit run,
`9`. -/
theorem claim_C3_counterexample :
    searchChunkNoUnderscore "chunk7_then_9".data = some 7 ∧
    extract_chunk_number "chunk7_then_9" = 9 := by
  constructor
  · rfl
  · rfl

/-- Claim C3 (amended): `extract_chunk_number` never raises and returns,
for every filename: the digits of the leftmost occurrence of the marker
`chunk_` (underscore included) followed by a run of digits, parsed as an
integer; otherwise, if the filename contains digits, the last maximal run
of digits parsed as an integer; otherwise `0`. In particular the long MARS
filename yields 4, `"segment_017.json"` yields 17, and `"nodigits.json"`
yields 0. -/
theorem claim_C3_extract_chunk_number (s : String) :
    (∀ pre rest : List Char,
      s.data = pre ++ ('c' :: 'h' :: 'u' :: 'n' :: 'k' :: '_' :: rest) →
      rest.takeWhile isDig ≠ [] →
      (∀ pre₂ rest₂ : List Char,
        s.data = pre₂ ++ ('c' :: 'h' :: 'u' :: 'n' :: 'k' :: '_' :: rest₂) →
        rest₂.takeWhile isDig ≠ [] → pre.length ≤ pre₂.length) →
      extract_chunk_number s = digitsToNat (rest.takeWhile isDig)) ∧
    ((∀ pre rest : List Char,
        s.data = pre ++ ('c' :: 'h' :: 'u' :: 'n' :: 'k' :: '_' :: rest) →
        rest.takeWhile isDig = []) →
      (∀ a ds b : List Char, s.data = a ++ ds ++ b → ds ≠ [] →
        (∀ c ∈ ds, isDig c = true) → (∀ c ∈ b, isDig c = false) →
        (a = [] ∨ ∃ a' c, a = a' ++ [c] ∧ isDig c = false) →
        extract_chunk_number s = digitsToNat ds) ∧
      ((∀ c ∈ s.data, isDig c = false) → extract_chunk_number s = 0)) ∧
    extract_chunk_number "MARS_20180413_065913_resampled_24kHz_chunk_004_output.json" = 4 ∧
    extract_chunk_number "segment_017.json" = 17 ∧
    extract_chunk_number "nodigits.json" = 0 := by
  refine ⟨?_, ?_, by rfl, by rfl, by rfl⟩
  · intro pre rest heq hne hmin
    have hs := searchChunk_leftmost pre s.data rest heq hne hmin
    unfold extract_chunk_number
    rw [hs]
  · intro hmk
    have hsc : searchChunk s.data = none := searchChunk_none_of_no_marker s.data hmk
    constructor
    · intro a ds b heq hne hds hb hbd
      have hlast : (oddIdx (natSplit s.data)).getLast? = some ds := by
        rw [heq]
        exact lastRun_getLast_of_decomp a ds b hne hds hb hbd
      unfold extract_chunk_number
      rw [hsc, hlast]
    · intro hnd
      have hone : natSplit s.data = [s.data] := natSplit_all_nondigit s.data hnd
      unfold extract_chunk_number
      rw [hsc, hone]
      rfl

/-- Witness for the amended C3: a leftmost `chunk_` match, a no-marker
fallback to the last digit run, and a digit-free name. -/
theorem claim_C3_extract_chunk_number_witness :
    extract_chunk_number "chunk_12x7" = 12 ∧
    extract_chunk_number "ab_34cd" = 34 ∧
    extract_chunk_number "nodigits.json" = 0 := by
  refine ⟨?_, ?_, ?_⟩
  · exact (claim_C3_extract_chunk_number "chunk_12x7").1 [] "12x7".data (by decide) (by decide)
      (fun _ _ _ _ => Nat.zero_le _)
  · exact ((claim_C3_extract_chunk_number "ab_34cd").2.1
      (no_marker_of_searchChunk_none "ab_34cd".data rfl)).1
      "ab_".data "34".data "cd".data (by decide) (by decide) (by decide) (by decide)
      (Or.inr ⟨"ab".data, '_', by decide, by decide⟩)
  · exact ((claim_C3_extract_chunk_number "nodigits.json").2.1
      (no_marker_of_searchChunk_none "nodigits.json".data rfl)).2 (by decide)

theorem dictInsert_values {q : String × Json} {d : Dict} {k : String} {v : Json}
    (h : q ∈ dictInsert d k v) : q.2 = v ∨ q ∈ d := by
  unfold dictInsert at h
  by_cases ha : d.any (fun p => p.1 == k) = true
  · rw [if_pos ha] at h
    rcases List.mem_map.mp h with ⟨p, hp, heq⟩
    by_cases hk : p.1 == k
    · rw [if_pos hk] at heq
      subst heq
      exact Or.inl rfl
    · rw [if_neg hk] at heq
      subst heq
      exact Or.inr hp
  · rw [if_neg ha] at h
    rcases List.mem_append.mp h with h | h
    · exact Or.inr h
    · rcases List.mem_singleton.mp h with rfl
      exact Or.inl rfl

theorem dictUpdate_values {q : String × Json} : ∀ {e d : Dict}, q ∈ dictUpdate d e →
    q ∈ d ∨ ∃ r ∈ e, q.2 = r.2 := by
  intro e
  induction e with
  | nil => intro d h; exact Or.inl h
  | cons r e' ih =>
    intro d h
    rcases ih h with h' | ⟨r', hr', hv⟩
    · rcases dictInsert_values h' with hv | hd
      · exact Or.inr ⟨r, List.mem_cons_self r e', hv⟩
      · exact Or.inl hd
    · exact Or.inr ⟨r', List.mem_cons_of_mem r hr', hv⟩

theorem foldl_dictUpdate_values {q : String × Json} : ∀ {ps : List Dict} {init : Dict},
    q ∈ ps.foldl dictUpdate init → q ∈ init ∨ ∃ piece ∈ ps, ∃ r ∈ piece, q.2 = r.2 := by
  intro ps
  induction ps with
  | nil => intro init h; exact Or.inl h
  | cons piece ps' ih =>
    intro init h
    rcases ih h with h' | ⟨pc, hpc, r, hr, hv⟩
    · rcases dictUpdate_values h' with h'' | ⟨r, hr, hv⟩
      · exact Or.inl h''
      · exact Or.inr ⟨piece, List.mem_cons_self piece ps', r, hr, hv⟩
    · exact Or.inr ⟨pc, List.mem_cons_of_mem piece hpc, r, hr, hv⟩

theorem flatten_json_values_scalar : ∀ (N : Nat) (data : Json), data.msize ≤ N →
    ∀ (pk sep : String), ∀ p ∈ flatten_json data pk sep, p.2.isScalar = true := by
  intro N
  induction N using Nat.strong_induction_on with
  | _ N ih =>
    intro data hN pk sep p hp
    cases data with
    | obj ms =>
      rw [flatten_json_obj] at hp
      rcases foldl_dictUpdate_values hp with h | ⟨piece, hpiece, r, hr, hval⟩
      · cases h
      · rcases List.mem_flatten.mp hpiece with ⟨pl, hpl, hpp⟩
        rcases List.mem_map.mp hpl with ⟨q, hq, rfl⟩
        have hqs := msize_lt_of_mem_obj ms q hq
        obtain ⟨k, v⟩ := q
        simp only at hqs
        cases v with
        | obj ms2 =>
          rcases List.mem_singleton.mp hpp with rfl
          rw [hval]
          exact ih (Json.msize (Json.obj ms2))
            (by simp [Json.msize] at hqs hN ⊢; omega) (Json.obj ms2) (Nat.le_refl _) _ sep r hr
        | arr ys =>
          rcases List.mem_map.mp hpp with ⟨qq, hqq, rfl⟩
          have hqq2 := msize_lt_of_mem_arr ys qq.2 (snd_mem_of_mem_natsortEnum hqq)
          by_cases hc : qq.2.isContainer = true
          · rw [if_pos hc] at hr
            rw [hval]
            exact ih (Json.msize qq.2)
              (by simp [Json.msize] at hqs hqq2 hN ⊢; omega) qq.2 (Nat.le_refl _) _ sep r hr
          · rw [if_neg hc] at hr
            rcases List.mem_singleton.mp hr with rfl
            rw [hval]
            simpa [Json.isScalar] using hc
        | str sv =>
          rcases List.mem_singleton.mp hpp with rfl
          rcases List.mem_singleton.mp hr with rfl
          rw [hval]; rfl
        | num nv =>
          rcases List.mem_singleton.mp hpp with rfl
          rcases List.mem_singleton.mp hr with rfl
          rw [hval]; rfl
        | bool bv =>
          rcases List.mem_singleton.mp hpp with rfl
          rcases List.mem_singleton.mp hr with rfl
          rw [hval]; rfl
        | null =>
          rcases List.mem_singleton.mp hpp with rfl
          rcases List.mem_singleton.mp hr with rfl
          rw [hval]; rfl
    | arr es =>
      rw [flatten_json_arr] at hp
      rcases foldl_dictUpdate_values hp with h | ⟨piece, hpiece, r, hr, hval⟩
      · cases h
      · rcases List.mem_map.mp hpiece with ⟨qq, hqq, rfl⟩
        have hqq2 := msize_lt_of_mem_arr es qq.2 (snd_mem_of_mem_natsortEnum hqq)
        by_cases hc : qq.2.isContainer = true
        · rw [if_pos hc] at hr
          rw [hval]
          exact ih (Json.msize qq.2)
            (by simp [Json.msize] at hqq2 hN ⊢; omega) qq.2 (Nat.le_refl _) _ sep r hr
        · rw [if_neg hc] at hr
          rcases List.mem_singleton.mp hr with rfl
          rw [hval]
          simpa [Json.isScalar] using hc
    | str sv =>
      rw [flatten_json_scalar _ _ _ (by rfl)] at hp
      rcases List.mem_singleton.mp hp with rfl
      rfl
    | num nv =>
      rw [flatten_json_scalar _ _ _ (by rfl)] at hp
      rcases List.mem_singleton.mp hp with rfl
      rfl
    | bool bv =>
      rw [flatten_json_scalar _ _ _ (by rfl)] at hp
      rcases List.mem_singleton.mp hp with rfl
      rfl
    | null =>
      rw [flatten_json_scalar _ _ _ (by rfl)] at hp
      rcases List.mem_singleton.mp hp with rfl
      rfl

/-- Claim C8: every value in the mapping returned by `flatten_json` is a
JSON scalar — no value in the result is an object or an array — and empty
objects and empty arrays contribute no keys at all. -/
theorem claim_C8_all_values_scalar (data : Json) (pk sep : String) :
    (∀ p ∈ flatten_json data pk sep, p.2.isScalar = true) ∧
    flatten_json (Json.obj JObj.nil) pk sep = [] ∧
    flatten_json (Json.arr JArr.nil) pk sep = [] := by
  refine ⟨fun p hp => flatten_json_values_scalar data.msize data (Nat.le_refl _) pk sep p hp,
    ?_, ?_⟩
  · rw [flatten_json_obj]
    rfl
  · rw [flatten_json_arr]
    rfl

/-- Witness for C8 at a document with a nested array. -/
theorem claim_C8_all_values_scalar_witness :
    (("a_1", Json.num 3) : String × Json) ∈
      flatten_json (Json.obj (JObj.cons "a" (Json.arr (JArr.cons (Json.num 3) JArr.nil))
        JObj.nil)) "" "_" ∧
    (Json.num 3).isScalar = true :=
  ⟨by decide,
    (claim_C8_all_values_scalar
      (Json.obj (JObj.cons "a" (Json.arr (JArr.cons (Json.num 3) JArr.nil)) JObj.nil))
      "" "_").1 ("a_1", Json.num 3) (by decide)⟩

/-! ### Dictionary lemmas: folding updates over pieces with pairwise-distinct keys -/

theorem dictInsert_not_mem (d : Dict) (k : String) (v : Json)
    (h : k ∉ d.map Prod.fst) : dictInsert d k v = d ++ [(k, v)] := by
  have ha : d.any (fun p => p.1 == k) = false := by
    rw [List.any_eq_false]
    intro p hp
    simp only [beq_iff_eq]
    intro hpk
    exact h (hpk ▸ List.mem_map_of_mem Prod.fst hp)
  simp [dictInsert, ha]

theorem dictUpdate_append : ∀ (e d : Dict), ((d ++ e).map Prod.fst).Nodup →
    dictUpdate d e = d ++ e := by
  intro e
  induction e with
  | nil => intro d _; simp [dictUpdate]
  | cons r rs ih =>
    intro d hnd
    have hr : r.1 ∉ d.map Prod.fst := by
      intro hmem
      rw [List.map_append] at hnd
      rcases List.nodup_append.mp hnd with ⟨_, _, hdisj⟩
      exact hdisj hmem (by simp)
    have h1 : dictUpdate d (r :: rs) = dictUpdate (d ++ [r]) rs := by
      show List.foldl _ _ (r :: rs) = _
      rw [List.foldl_cons]
      show List.foldl _ (dictInsert d r.1 r.2) rs = _
      rw [dictInsert_not_mem d r.1 r.2 hr]
      rfl
    have hnd' : (((d ++ [r]) ++ rs).map Prod.fst).Nodup := by
      rw [List.append_assoc, List.singleton_append]
      exact hnd
    calc dictUpdate d (r :: rs) = dictUpdate (d ++ [r]) rs := h1
      _ = (d ++ [r]) ++ rs := ih (d ++ [r]) hnd'
      _ = d ++ r :: rs := by rw [List.append_assoc, List.singleton_append]

theorem foldl_dictUpdate_flatten : ∀ (ps : List Dict) (init : Dict),
    ((init ++ ps.flatten).map Prod.fst).Nodup →
    ps.foldl dictUpdate init = init ++ ps.flatten := by
  intro ps
  induction ps with
  | nil => intro init _; simp
  | cons p ps ih =>
    intro init hnd
    rw [List.foldl_cons]
    rw [List.flatten_cons, ← List.append_assoc] at hnd ⊢
    rw [dictUpdate_append p init
      (List.Nodup.sublist ((List.sublist_append_left _ _).map Prod.fst) hnd)]
    exact ih (init ++ p) hnd

theorem flatten_map_singleton {α : Type} (l : List α) : (l.map (fun r => [r])).flatten = l := by
  induction l with
  | nil => rfl
  | cons a l ih => simp [ih]

theorem foldl_dictUpdate_singletons (pairs : List (String × Json))
    (h : (pairs.map Prod.fst).Nodup) :
    (pairs.map (fun r => [r])).foldl dictUpdate [] = pairs := by
  have hf := foldl_dictUpdate_flatten (pairs.map (fun r => [r])) []
  rw [flatten_map_singleton] at hf
  simp only [List.nil_append] at hf
  exact hf h

/-! ### Looking up keys in a dict with pairwise-distinct keys -/

theorem dictGet_of_mem_nodup : ∀ (d : Dict) (k : String) (v : Json),
    (d.map Prod.fst).Nodup → (k, v) ∈ d → dictGet d k = some v := by
  intro d
  induction d with
  | nil => intro k v _ h; cases h
  | cons p d ih =>
    intro k v hnd hm
    rcases List.mem_cons.mp hm with h | h
    · rw [← h]
      simp only [dictGet]
      rw [List.find?_cons_of_pos _ (by simp)]
      rfl
    · have hk : k ∈ d.map Prod.fst := List.mem_map_of_mem Prod.fst h
      rw [List.map_cons] at hnd
      have hp1 : ¬ (p.1 == k) = true := by
        simp only [beq_iff_eq]
        intro he
        exact (List.nodup_cons.mp hnd).1 (he ▸ hk)
      have hfc : List.find? (fun q : String × Json => q.1 == k) (p :: d)
          = List.find? (fun q : String × Json => q.1 == k) d :=
        List.find?_cons_of_neg _ hp1
      simp only [dictGet]
      rw [hfc]
      exact ih k v (List.nodup_cons.mp hnd).2 h

theorem dictGet_eq_none_iff (d : Dict) (k : String) :
    dictGet d k = none ↔ k ∉ d.map Prod.fst := by
  constructor
  · intro h hk
    rcases List.mem_map.mp hk with ⟨p, hp, hpk⟩
    have hfind : (List.find? (fun q => q.1 == k) d) = none := by
      cases hfind : List.find? (fun q => q.1 == k) d with
      | none => rfl
      | some q => simp [dictGet, hfind] at h
    have := List.find?_eq_none.mp hfind p hp
    simp [hpk] at this
  · intro h
    have hfind : List.find? (fun q => q.1 == k) d = none := by
      rw [List.find?_eq_none]
      intro p hp
      simp only [beq_iff_eq]
      intro he
      exact h (he ▸ List.mem_map_of_mem Prod.fst hp)
    simp [dictGet, hfind]

theorem mem_of_dictGet_some {d : Dict} {k : String} {v : Json}
    (h : dictGet d k = some v) : (k, v) ∈ d := by
  cases hfind : List.find? (fun q => q.1 == k) d with
  | none => simp [dictGet, hfind] at h
  | some q =>
    have hq := List.find?_some hfind
    have hqm := List.mem_of_find?_eq_some hfind
    obtain ⟨q1, q2⟩ := q
    simp only [beq_iff_eq] at hq
    simp [dictGet, hfind] at h
    subst hq
    subst h
    exact hqm

theorem dictGet_congr_perm {d₁ d₂ : Dict} (hp : d₁.Perm d₂)
    (hnd : (d₁.map Prod.fst).Nodup) (k : String) : dictGet d₁ k = dictGet d₂ k := by
  have hnd₂ : (d₂.map Prod.fst).Nodup := ((hp.map Prod.fst).nodup_iff).mp hnd
  cases h1 : dictGet d₁ k with
  | none =>
    have hk := (dictGet_eq_none_iff d₁ k).mp h1
    have hk₂ : k ∉ d₂.map Prod.fst := fun hm => hk (((hp.map Prod.fst).mem_iff).mpr hm)
    exact ((dictGet_eq_none_iff d₂ k).mpr hk₂).symm
  | some v =>
    have hm := mem_of_dictGet_some h1
    exact (dictGet_of_mem_nodup d₂ k v hnd₂ (hp.mem_iff.mp hm)).symm

/-! ### Key injectivity for the generated list keys -/

theorem string_append_right_inj (k : String) {s t : String} (h : k ++ s = k ++ t) : s = t := by
  have hd := congrArg String.data h
  rw [String.data_append, String.data_append] at hd
  exact String.ext (List.append_cancel_left hd)

theorem listKey_inj (k : String) :
    Function.Injective (fun n : Nat => k ++ "_" ++ natRepr (n + 1)) := by
  intro a b h
  have := natRepr_inj (string_append_right_inj (k ++ "_") h)
  omega

theorem nodup_mapped_keys (k : String) (L : List (Nat × Json))
    (h : (L.map (fun q : Nat × Json => q.1)).Nodup) :
    ((L.map (fun q : Nat × Json => (k ++ "_" ++ natRepr (q.1 + 1), q.2))).map Prod.fst).Nodup := by
  have he : (L.map (fun q : Nat × Json => (k ++ "_" ++ natRepr (q.1 + 1), q.2))).map Prod.fst
      = (L.map (fun q : Nat × Json => q.1)).map (fun n => k ++ "_" ++ natRepr (n + 1)) := by
    rw [List.map_map, List.map_map]
    rfl
  rw [he]
  exact h.map (listKey_inj k)

theorem nodup_fst_natsortEnum (xs : List Json) :
    ((natsortEnum xs).map (fun q : Nat × Json => q.1)).Nodup := by
  have hperm := (List.perm_insertionSort pairLe xs.enum).map (fun q : Nat × Json => q.1)
  have hbase : ((xs.enum).map (fun q : Nat × Json => q.1)).Nodup := by
    have := List.nodup_enum_map_fst xs
    exact this
  exact hperm.nodup_iff.mpr hbase

theorem flatten_scalarArray_obj (k : String) (xs : List Json)
    (hs : ∀ x ∈ xs, x.isScalar = true) :
    flatten_json (Json.obj (JObj.cons k (Json.arr (JArr.ofList xs)) JObj.nil)) "" "_"
      = (natsortEnum xs).map (fun q : Nat × Json => (k ++ "_" ++ natRepr (q.1 + 1), q.2)) := by
  rw [flatten_json_obj]
  simp only [JObj.toList, List.map_cons, List.map_nil]
  try dsimp only
  simp only [if_true, JArr_toList_ofList]
  have hmap : (natsortEnum xs).map
      (fun q : Nat × Json =>
        if q.2.isContainer = true then flatten_json q.2 (k ++ "_" ++ natRepr (q.1 + 1)) "_"
        else [(k ++ "_" ++ natRepr (q.1 + 1), q.2)])
      = ((natsortEnum xs).map (fun q : Nat × Json => (k ++ "_" ++ natRepr (q.1 + 1), q.2))).map
          (fun r => [r]) := by
    rw [List.map_map]
    apply List.map_congr_left
    intro q hq
    have hsc := hs q.2 (snd_mem_of_mem_natsortEnum hq)
    have hc : q.2.isContainer = false := by
      simp [Json.isScalar] at hsc
      exact hsc
    rw [hc]
    rfl
  rw [hmap]
  simp only [List.flatten_cons, List.flatten_nil, List.append_nil]
  exact foldl_dictUpdate_singletons _ (nodup_mapped_keys k (natsortEnum xs) (nodup_fst_natsortEnum xs))

/-- C1: flattening an object whose key `k` holds an array of scalars pairs
each element with its original 0-based position (`enumerate`), stable-sorts
the pairs by the natural-sort key of the stringified element value
(`natsortEnum`), and emits, in that sorted order, the key
`k ++ "_" ++ (original index + 1)` mapped to the element itself; looking up
`k_(i+1)` always returns element `i` of the original array, and flattening
`\x7b"tags": ["b", "a", "c"]\x7d` yields `tags_2 = "a", tags_1 = "b",
tags_3 = "c"` with the suffix encoding the original position. -/
theorem claim_C1_array_flattening (k : String) (xs : List Json)
    (hs : ∀ x ∈ xs, x.isScalar = true) :
    (flatten_json (Json.obj (JObj.cons k (Json.arr (JArr.ofList xs)) JObj.nil)) "" "_"
        = (natsortEnum xs).map (fun q : Nat × Json => (k ++ "_" ++ natRepr (q.1 + 1), q.2))) ∧
    (natsortEnum xs).Perm xs.enum ∧
    (natsortEnum xs).Sorted pairLe ∧
    (∀ (i : Nat) (h : i < xs.length),
      dictGet (flatten_json (Json.obj (JObj.cons k (Json.arr (JArr.ofList xs)) JObj.nil)) "" "_")
        (k ++ "_" ++ natRepr (i + 1)) = some (xs.get ⟨i, h⟩)) ∧
    flatten_json (Json.obj (JObj.cons "tags" (Json.arr (JArr.cons (Json.str "b")
        (JArr.cons (Json.str "a") (JArr.cons (Json.str "c") JArr.nil)))) JObj.nil)) "" "_"
      = [("tags_2", Json.str "a"), ("tags_1", Json.str "b"), ("tags_3", Json.str "c")] := by
  have hmain := flatten_scalarArray_obj k xs hs
  refine ⟨hmain, List.perm_insertionSort pairLe xs.enum,
    List.sorted_insertionSort pairLe xs.enum, ?_, by decide⟩
  intro i h
  rw [hmain]
  apply dictGet_of_mem_nodup _ _ _
    (nodup_mapped_keys k (natsortEnum xs) (nodup_fst_natsortEnum xs))
  have he : (i, xs.get ⟨i, h⟩) ∈ xs.enum := by
    rw [List.mem_enum_iff_getElem?]
    simp
  have hm : (i, xs.get ⟨i, h⟩) ∈ natsortEnum xs :=
    ((List.perm_insertionSort pairLe xs.enum).mem_iff).mpr he
  exact List.mem_map_of_mem _ hm

/-- Witness for C1 at the spec's tags example. -/
theorem claim_C1_array_flattening_witness :
    (∀ x ∈ [Json.str "b", Json.str "a", Json.str "c"], x.isScalar = true) ∧
    (0 : Nat) < ([Json.str "b", Json.str "a", Json.str "c"] : List Json).length ∧
    dictGet (flatten_json (Json.obj (JObj.cons "tags" (Json.arr (JArr.ofList
        [Json.str "b", Json.str "a", Json.str "c"])) JObj.nil)) "" "_")
      ("tags" ++ "_" ++ natRepr (0 + 1)) = some (Json.str "b") := by
  refine ⟨by decide, by decide, ?_⟩
  have h := (claim_C1_array_flattening "tags" [Json.str "b", Json.str "a", Json.str "c"]
    (by decide)).2.2.2.1 0 (by decide)
  simpa using h

/-! ### C9 machinery: relating the three flattening variants -/

theorem forall₂_map_same {α β : Type} {R : β → β → Prop} {f g : α → β} :
    ∀ {l : List α}, (∀ x ∈ l, R (f x) (g x)) → List.Forall₂ R (l.map f) (l.map g) := by
  intro l
  induction l with
  | nil => intro _; exact List.Forall₂.nil
  | cons a l ih =>
    intro h
    exact List.Forall₂.cons (h a (by simp)) (ih (fun x hx => h x (by simp [hx])))

theorem nodup_of_piece_mem {P : List Dict} {piece : Dict}
    (hm : piece ∈ P) (h : ((P.flatten).map Prod.fst).Nodup) :
    (piece.map Prod.fst).Nodup :=
  List.Nodup.sublist ((List.sublist_flatten_of_mem hm).map Prod.fst) h

theorem foldl_eq_of_perm_flatten {Q P : List Dict}
    (hperm : (Q.flatten).Perm (P.flatten))
    (h : ((P.flatten).map Prod.fst).Nodup) :
    Q.foldl dictUpdate [] = Q.flatten ∧ (Q.foldl dictUpdate []).Perm (P.flatten) := by
  have hnd : ((Q.flatten).map Prod.fst).Nodup := ((hperm.map Prod.fst).nodup_iff).mpr h
  have he : Q.foldl dictUpdate [] = Q.flatten := by
    have hf := foldl_dictUpdate_flatten Q [] (by simpa using hnd)
    simpa using hf
  exact ⟨he, he ▸ hperm⟩

theorem noSortStep1 {α : Type} (l : List α) (f g : α → Dict)
    (hfg : ∀ p ∈ l, f p = g p)
    (H : (((l.map g).flatten).map Prod.fst).Nodup) :
    (l.map f).foldl dictUpdate [] = (l.map g).flatten := by
  rw [List.map_congr_left hfg]
  have hf := foldl_dictUpdate_flatten (l.map g) [] (by simpa using H)
  simpa using hf

theorem noSortStep2 {α : Type} (l : List α) (f g : α → List Dict)
    (hfg : ∀ p ∈ l, f p = g p)
    (H : ((((l.map g).flatten).flatten).map Prod.fst).Nodup) :
    ((l.map f).flatten).foldl dictUpdate [] = ((l.map g).flatten).flatten := by
  rw [List.map_congr_left hfg]
  have hf := foldl_dictUpdate_flatten ((l.map g).flatten) [] (by simpa using H)
  simpa using hf

theorem subH_obj_obj (ms : JObj) (pk sep kk : String) (ms2 : JObj)
    (hp : (kk, Json.obj ms2) ∈ ms.toList)
    (H : ((flattenJoin (Json.obj ms) pk sep).map Prod.fst).Nodup) :
    ((flattenJoin (Json.obj ms2)
        (if pk = "" then kk else pk ++ sep ++ kk) sep).map Prod.fst).Nodup := by
  rw [flattenJoin_obj] at H
  apply nodup_of_piece_mem _ H
  apply List.mem_flatten.mpr
  refine ⟨_, List.mem_map_of_mem _ hp, ?_⟩
  try dsimp only
  simp

theorem subH_obj_arr (ms : JObj) (pk sep kk : String) (ys : JArr) (q : Nat × Json)
    (hp : (kk, Json.arr ys) ∈ ms.toList) (hq : q ∈ ys.toList.enum)
    (hc : q.2.isContainer = true)
    (H : ((flattenJoin (Json.obj ms) pk sep).map Prod.fst).Nodup) :
    ((flattenJoin q.2
        ((if pk = "" then kk else pk ++ sep ++ kk) ++ "_" ++ natRepr (q.1 + 1))
        sep).map Prod.fst).Nodup := by
  rw [flattenJoin_obj] at H
  apply nodup_of_piece_mem _ H
  apply List.mem_flatten.mpr
  refine ⟨_, List.mem_map_of_mem _ hp, ?_⟩
  try dsimp only
  refine List.mem_map.mpr ⟨q, hq, ?_⟩
  try dsimp only
  rw [if_pos hc]

theorem subH_arr (es : JArr) (pk sep : String) (q : Nat × Json)
    (hq : q ∈ es.toList.enum) (hc : q.2.isContainer = true)
    (H : ((flattenJoin (Json.arr es) pk sep).map Prod.fst).Nodup) :
    ((flattenJoin q.2
        ((if pk = "" then "item" else pk) ++ "_" ++ natRepr (q.1 + 1))
        sep).map Prod.fst).Nodup := by
  rw [flattenJoin_arr] at H
  apply nodup_of_piece_mem _ H
  refine List.mem_map.mpr ⟨q, hq, ?_⟩
  try dsimp only
  rw [if_pos hc]

theorem flatten_perm_and_noSort_eq_join : ∀ (N : Nat) (data : Json) (pk sep : String),
    data.msize ≤ N →
    ((flattenJoin data pk sep).map Prod.fst).Nodup →
    (flatten_json data pk sep).Perm (flattenJoin data pk sep) ∧
    flatten_json_noSort data pk sep = flattenJoin data pk sep := by
  intro N
  induction N using Nat.strong_induction_on with
  | _ N ih =>
    intro data pk sep hN H
    cases data with
    | obj ms =>
      have H' := H
      rw [flattenJoin_obj] at H'
      constructor
      · rw [flatten_json_obj, flattenJoin_obj]
        refine (foldl_eq_of_perm_flatten ?_ H').2
        rw [List.flatten_flatten, List.flatten_flatten, List.map_map, List.map_map]
        apply List.Perm.join_congr
        apply forall₂_map_same
        intro p hp
        have hqs := msize_lt_of_mem_obj ms p hp
        obtain ⟨kk, v⟩ := p
        simp only at hqs
        simp only [Function.comp]
        cases v with
        | obj ms2 =>
          try dsimp only
          simp only [List.flatten_cons, List.flatten_nil, List.append_nil]
          exact (ih (Json.msize (Json.obj ms2)) (by simp [Json.msize] at hqs hN ⊢; omega)
            (Json.obj ms2) _ sep (Nat.le_refl _) (subH_obj_obj ms pk sep kk ms2 hp H)).1
        | arr ys =>
          try dsimp only
          simp only [natsortEnum]
          refine List.Perm.trans
            (((List.perm_insertionSort pairLe ys.toList.enum).map _).flatten) ?_
          apply List.Perm.join_congr
          apply forall₂_map_same
          intro q hq
          have hqq2 := msize_lt_of_mem_arr ys q.2 (snd_mem_of_mem_enumFrom hq)
          try dsimp only
          by_cases hc : q.2.isContainer = true
          · rw [if_pos hc, if_pos hc]
            exact (ih (Json.msize q.2) (by simp [Json.msize] at hqs hqq2 hN ⊢; omega)
              q.2 _ sep (Nat.le_refl _) (subH_obj_arr ms pk sep kk ys q hp hq hc H)).1
          · rw [if_neg hc, if_neg hc]
        | str sv => exact List.Perm.refl _
        | num nv => exact List.Perm.refl _
        | bool bv => exact List.Perm.refl _
        | null => exact List.Perm.refl _
      · rw [flatten_json_noSort_obj, flattenJoin_obj]
        apply noSortStep2
        · intro p hp
          have hqs := msize_lt_of_mem_obj ms p hp
          obtain ⟨kk, v⟩ := p
          simp only at hqs
          cases v with
          | obj ms2 =>
            try dsimp only
            rw [(ih (Json.msize (Json.obj ms2)) (by simp [Json.msize] at hqs hN ⊢; omega)
              (Json.obj ms2) _ sep (Nat.le_refl _) (subH_obj_obj ms pk sep kk ms2 hp H)).2]
          | arr ys =>
            try dsimp only
            apply List.map_congr_left
            intro q hq
            have hqq2 := msize_lt_of_mem_arr ys q.2 (snd_mem_of_mem_enumFrom hq)
            try dsimp only
            by_cases hc : q.2.isContainer = true
            · rw [if_pos hc, if_pos hc,
                (ih (Json.msize q.2) (by simp [Json.msize] at hqs hqq2 hN ⊢; omega)
                  q.2 _ sep (Nat.le_refl _) (subH_obj_arr ms pk sep kk ys q hp hq hc H)).2]
            · rw [if_neg hc, if_neg hc]
          | str sv => rfl
          | num nv => rfl
          | bool bv => rfl
          | null => rfl
        · exact H'
    | arr es =>
      have H' := H
      rw [flattenJoin_arr] at H'
      constructor
      · rw [flatten_json_arr, flattenJoin_arr]
        refine (foldl_eq_of_perm_flatten ?_ H').2
        simp only [natsortEnum]
        refine List.Perm.trans
          (((List.perm_insertionSort pairLe es.toList.enum).map _).flatten) ?_
        apply List.Perm.join_congr
        apply forall₂_map_same
        intro q hq
        have hqq2 := msize_lt_of_mem_arr es q.2 (snd_mem_of_mem_enumFrom hq)
        try dsimp only
        by_cases hc : q.2.isContainer = true
        · rw [if_pos hc, if_pos hc]
          exact (ih (Json.msize q.2) (by simp [Json.msize] at hqq2 hN ⊢; omega)
            q.2 _ sep (Nat.le_refl _) (subH_arr es pk sep q hq hc H)).1
        · rw [if_neg hc, if_neg hc]
      · rw [flatten_json_noSort_arr, flattenJoin_arr]
        apply noSortStep1
        · intro q hq
          have hqq2 := msize_lt_of_mem_arr es q.2 (snd_mem_of_mem_enumFrom hq)
          try dsimp only
          by_cases hc : q.2.isContainer = true
          · rw [if_pos hc, if_pos hc,
              (ih (Json.msize q.2) (by simp [Json.msize] at hqq2 hN ⊢; omega)
                q.2 _ sep (Nat.le_refl _) (subH_arr es pk sep q hq hc H)).2]
          · rw [if_neg hc, if_neg hc]
        · exact H'
    | str sv =>
      rw [flatten_json_scalar _ _ _ (by rfl), flatten_json_noSort_scalar _ _ _ (by rfl),
        flattenJoin_scalar _ _ _ (by rfl)]
      exact ⟨List.Perm.refl _, rfl⟩
    | num nv =>
      rw [flatten_json_scalar _ _ _ (by rfl), flatten_json_noSort_scalar _ _ _ (by rfl),
        flattenJoin_scalar _ _ _ (by rfl)]
      exact ⟨List.Perm.refl _, rfl⟩
    | bool bv =>
      rw [flatten_json_scalar _ _ _ (by rfl), flatten_json_noSort_scalar _ _ _ (by rfl),
        flattenJoin_scalar _ _ _ (by rfl)]
      exact ⟨List.Perm.refl _, rfl⟩
    | null =>
      rw [flatten_json_scalar _ _ _ (by rfl), flatten_json_noSort_scalar _ _ _ (by rfl),
        flattenJoin_scalar _ _ _ (by rfl)]
      exact ⟨List.Perm.refl _, rfl⟩

/-- C9: for every JSON document in which no two distinct nesting paths
produce the same joined column name (the key list of the concatenation
variant `flattenJoin` has no duplicates), the key-to-value mapping returned
by `flatten_json` is identical, as an unordered mapping, to the one
produced by the positional-order variant `flatten_json_noSort` that iterates
array elements in their original `enumerate` order without the natural-sort
reordering: every lookup agrees. -/
theorem claim_C9_sort_independent_mapping (data : Json)
    (H : ((flattenJoin data "" "_").map Prod.fst).Nodup) :
    ∀ key, dictGet (flatten_json data "" "_") key
      = dictGet (flatten_json_noSort data "" "_") key := by
  intro key
  obtain ⟨hperm, heq⟩ :=
    flatten_perm_and_noSort_eq_join data.msize data "" "_" (Nat.le_refl _) H
  rw [heq]
  exact dictGet_congr_perm hperm (((hperm.map Prod.fst).nodup_iff).mpr H) key

/-- Witness for C9 at a document whose array gets reordered by the
natural sort (`[20, 3]` stringifies to `"20" < "3"` positionally but
`3 < 20` naturally). -/
theorem claim_C9_sort_independent_mapping_witness :
    ((flattenJoin (Json.obj (JObj.cons "a" (Json.arr (JArr.cons (Json.num 20)
        (JArr.cons (Json.num 3) JArr.nil)))
        (JObj.cons "b" (Json.num 5) JObj.nil))) "" "_").map Prod.fst).Nodup ∧
    dictGet (flatten_json (Json.obj (JObj.cons "a" (Json.arr (JArr.cons (Json.num 20)
        (JArr.cons (Json.num 3) JArr.nil)))
        (JObj.cons "b" (Json.num 5) JObj.nil))) "" "_") "a_1"
      = dictGet (flatten_json_noSort (Json.obj (JObj.cons "a" (Json.arr (JArr.cons (Json.num 20)
        (JArr.cons (Json.num 3) JArr.nil)))
        (JObj.cons "b" (Json.num 5) JObj.nil))) "" "_") "a_1" := by
  refine ⟨by decide, ?_⟩
  exact claim_C9_sort_independent_mapping _ (by decide) "a_1"
